import Mathlib

set_option maxHeartbeats 1000000

/-!
Verification of the JSON-to-JSONL converter (`src/json2jsonl.py`).

The development shallowly embeds the shape-resolving parser
(`parse_json_file`), the writer (`write_jsonl_file`) and the command
exit logic (`main`) of `src/json2jsonl.py`.  The Python `json` module
(an external library the source calls) is modelled by an executable
serializer (`dumpVal`, compact separators, `ensure_ascii=False`) and an
executable recursive-descent parser (`jsonLoadsL`) over a JSON value
universe whose numbers are integers; floating-point literals and the
non-standard `NaN`/`Infinity` extensions lie outside the modelled
universe, and Lean strings cannot carry lone surrogates.  File I/O is
abstracted: the parser receives the file's text, the writer returns the
text it would write, and `main`'s environment (input existence, sink
writability) is passed as booleans.
-/

namespace J2J

/-- JSON values as produced by Python's `json.loads`, with numbers
restricted to integers.  Objects keep insertion order, as Python dicts
do. -/
inductive JVal where
  | null : JVal
  | bool : Bool → JVal
  | num : Int → JVal
  | str : String → JVal
  | arr : List JVal → JVal
  | obj : List (String × JVal) → JVal

mutual

/-- Decidable equality of JSON values. -/
def decEqV : (a b : JVal) → Decidable (a = b)
  | .null, .null => isTrue rfl
  | .null, .bool _ => isFalse nofun
  | .null, .num _ => isFalse nofun
  | .null, .str _ => isFalse nofun
  | .null, .arr _ => isFalse nofun
  | .null, .obj _ => isFalse nofun
  | .bool _, .null => isFalse nofun
  | .bool a, .bool b =>
    if h : a = b then isTrue (by rw [h]) else isFalse (fun he => h (JVal.bool.inj he))
  | .bool _, .num _ => isFalse nofun
  | .bool _, .str _ => isFalse nofun
  | .bool _, .arr _ => isFalse nofun
  | .bool _, .obj _ => isFalse nofun
  | .num _, .null => isFalse nofun
  | .num _, .bool _ => isFalse nofun
  | .num a, .num b =>
    if h : a = b then isTrue (by rw [h]) else isFalse (fun he => h (JVal.num.inj he))
  | .num _, .str _ => isFalse nofun
  | .num _, .arr _ => isFalse nofun
  | .num _, .obj _ => isFalse nofun
  | .str _, .null => isFalse nofun
  | .str _, .bool _ => isFalse nofun
  | .str _, .num _ => isFalse nofun
  | .str a, .str b =>
    if h : a = b then isTrue (by rw [h]) else isFalse (fun he => h (JVal.str.inj he))
  | .str _, .arr _ => isFalse nofun
  | .str _, .obj _ => isFalse nofun
  | .arr _, .null => isFalse nofun
  | .arr _, .bool _ => isFalse nofun
  | .arr _, .num _ => isFalse nofun
  | .arr _, .str _ => isFalse nofun
  | .arr xs, .arr ys =>
    match decEqVL xs ys with
    | isTrue h => isTrue (by rw [h])
    | isFalse h => isFalse (fun he => h (JVal.arr.inj he))
  | .arr _, .obj _ => isFalse nofun
  | .obj _, .null => isFalse nofun
  | .obj _, .bool _ => isFalse nofun
  | .obj _, .num _ => isFalse nofun
  | .obj _, .str _ => isFalse nofun
  | .obj _, .arr _ => isFalse nofun
  | .obj xs, .obj ys =>
    match decEqVM xs ys with
    | isTrue h => isTrue (by rw [h])
    | isFalse h => isFalse (fun he => h (JVal.obj.inj he))

/-- Decidable equality of JSON value lists. -/
def decEqVL : (xs ys : List JVal) → Decidable (xs = ys)
  | [], [] => isTrue rfl
  | [], _ :: _ => isFalse nofun
  | _ :: _, [] => isFalse nofun
  | x :: xs, y :: ys =>
    match decEqV x y, decEqVL xs ys with
    | isTrue h1, isTrue h2 => isTrue (by rw [h1, h2])
    | isFalse h1, _ => isFalse (fun he => h1 (List.cons.inj he).1)
    | _, isFalse h2 => isFalse (fun he => h2 (List.cons.inj he).2)

/-- Decidable equality of JSON member lists. -/
def decEqVM : (xs ys : List (String × JVal)) → Decidable (xs = ys)
  | [], [] => isTrue rfl
  | [], _ :: _ => isFalse nofun
  | _ :: _, [] => isFalse nofun
  | (k1, v1) :: ms1, (k2, v2) :: ms2 =>
    if hk : k1 = k2 then
      match decEqV v1 v2, decEqVM ms1 ms2 with
      | isTrue h1, isTrue h2 => isTrue (by rw [hk, h1, h2])
      | isFalse h1, _ =>
        isFalse (fun he => h1 (Prod.mk.inj ((List.cons.inj he).1)).2)
      | _, isFalse h2 => isFalse (fun he => h2 (List.cons.inj he).2)
    else isFalse (fun he => hk (Prod.mk.inj ((List.cons.inj he).1)).1)

end

instance : DecidableEq JVal := decEqV

/-- A record: one JSON mapping, as an insertion-ordered key/value list. -/
abbrev Record := List (String × JVal)

/-- JSON whitespace accepted by Python's `json` scanner. -/
def isJsonWs (c : Char) : Bool :=
  c = ' ' || c = '\t' || c = '\n' || c = '\r'

/-- Whitespace removed by Python's `str.strip()` (ASCII part). -/
def isPyWs (c : Char) : Bool :=
  c = ' ' || c = '\t' || c = '\n' || c = '\r' || c = '\u000B' || c = '\u000C'

/-- Skip JSON whitespace, as the `json` scanner does between tokens. -/
def skipWs (cs : List Char) : List Char := cs.dropWhile isJsonWs

/-- Python `str.strip()` on a character list. -/
def pyStripL (cs : List Char) : List Char :=
  ((cs.dropWhile isPyWs).reverse.dropWhile isPyWs).reverse

/-- Python `content.split('\n')` on a character list: split at every
newline; the empty text yields one empty piece. -/
def splitNLChars : List Char → List (List Char)
  | [] => [[]]
  | c :: rest =>
    if c = '\n' then [] :: splitNLChars rest
    else
      match splitNLChars rest with
      | [] => [[c]]
      | l :: ls => (c :: l) :: ls

/-- Concatenation of lines where every line is followed by one newline,
mirroring the writer's `f.write(json_str + '\n')` loop. -/
def joinAll : List (List Char) → List Char
  | [] => []
  | d :: ds => d ++ '\n' :: joinAll ds

/-- Lines joined by single newlines (no trailing newline). -/
def joinNL : List (List Char) → List Char
  | [] => []
  | [d] => d
  | d :: ds => d ++ '\n' :: joinNL ds

/-- Numeric value of a decimal digit character. -/
def digitVal (c : Char) : Nat := c.toNat - '0'.toNat

/-- The decimal digit character for `n < 10`. -/
def digitChar (n : Nat) : Char := Char.ofNat ('0'.toNat + n)

/-- Decimal reading of a digit list (most significant first). -/
def charsToNat (cs : List Char) : Nat :=
  cs.foldl (fun a c => 10 * a + digitVal c) 0

/-- Decimal printing of a natural number, digit by digit; the fuel
strictly dominates the number so that the division chain terminates. -/
def natToCharsAux : Nat → Nat → List Char
  | 0, _ => []
  | fuel + 1, n =>
    if n < 10 then [digitChar n]
    else natToCharsAux fuel (n / 10) ++ [digitChar (n % 10)]

/-- Decimal printing of a natural number, as Python's `repr` of an int. -/
def natToChars (n : Nat) : List Char := natToCharsAux (n + 1) n

/-- Decimal printing of an integer. -/
def intToChars (i : Int) : List Char :=
  if i < 0 then '-' :: natToChars i.natAbs else natToChars i.toNat

/-- Lowercase hex digit character for `n < 16`, as in Python's
`'\\u%04x'` formatting of control characters. -/
def hexDigitChar (n : Nat) : Char :=
  if n < 10 then digitChar n else Char.ofNat ('a'.toNat + (n - 10))

/-- Escaping of one character by `json.dumps(..., ensure_ascii=False)`:
quote, backslash and control characters are escaped, everything else is
emitted literally. -/
def escChar (c : Char) : List Char :=
  if c = '"' then ['\\', '"']
  else if c = '\\' then ['\\', '\\']
  else if c = '\n' then ['\\', 'n']
  else if c = '\r' then ['\\', 'r']
  else if c = '\t' then ['\\', 't']
  else if c = '\u0008' then ['\\', 'b']
  else if c = '\u000C' then ['\\', 'f']
  else if c.toNat < 0x20 then
    ['\\', 'u', '0', '0', hexDigitChar (c.toNat / 16), hexDigitChar (c.toNat % 16)]
  else [c]

/-- Escaping of a whole string body. -/
def escChars : List Char → List Char
  | [] => []
  | c :: cs => escChar c ++ escChars cs

mutual

/-- `json.dumps(v, ensure_ascii=False, separators=(',', ':'))`: the
compact serialization used by the writer when `pretty` is false. -/
def dumpVal : JVal → List Char
  | .null => 'n' :: ['u', 'l', 'l']
  | .bool true => 't' :: ['r', 'u', 'e']
  | .bool false => 'f' :: ['a', 'l', 's', 'e']
  | .num i => intToChars i
  | .str s => '"' :: (escChars s.data ++ ['"'])
  | .arr [] => ['[', ']']
  | .arr (v :: vs) => '[' :: (dumpVal v ++ dumpElemsRest vs)
  | .obj [] => ['{', '}']
  | .obj ((k, v) :: ms) =>
    '{' :: ('"' :: (escChars k.data ++ ['"', ':'] ++ dumpVal v ++ dumpMembersRest ms))

/-- Remaining array elements of a compact serialization, each preceded
by a comma, closed by the bracket. -/
def dumpElemsRest : List JVal → List Char
  | [] => [']']
  | v :: vs => ',' :: (dumpVal v ++ dumpElemsRest vs)

/-- Remaining object members of a compact serialization. -/
def dumpMembersRest : List (String × JVal) → List Char
  | [] => ['}']
  | (k, v) :: ms =>
    ',' :: ('"' :: (escChars k.data ++ ['"', ':'] ++ dumpVal v ++ dumpMembersRest ms))

end

/-- Membership test for a key in a record, as Python dict lookup. -/
def hasKey (k : String) : Record → Bool
  | [] => false
  | (k2, _) :: ms => (k = k2) || hasKey k ms

/-- All keys distinct (Python dicts hold each key once). -/
def nodupKeys : Record → Bool
  | [] => true
  | (k, _) :: ms => !hasKey k ms && nodupKeys ms

mutual

/-- Well-formedness of a value: every object node has pairwise distinct
keys, so it denotes an actual Python dict. -/
def wfB : JVal → Bool
  | .null => true
  | .bool _ => true
  | .num _ => true
  | .str _ => true
  | .arr l => wfArr l
  | .obj ms => nodupKeys ms && wfMems ms

/-- Well-formedness of every element of a list. -/
def wfArr : List JVal → Bool
  | [] => true
  | v :: vs => wfB v && wfArr vs

/-- Well-formedness of every member value. -/
def wfMems : List (String × JVal) → Bool
  | [] => true
  | (_, v) :: ms => wfB v && wfMems ms

end

/-- No brace character occurs in the string. -/
def braceFreeStr (s : String) : Bool :=
  s.data.all (fun c => !(c = '{') && !(c = '}'))

mutual

/-- No brace character occurs inside any string value or key of the
value; the documented precondition of the concatenated-objects
fallback. -/
def nobB : JVal → Bool
  | .null => true
  | .bool _ => true
  | .num _ => true
  | .str s => braceFreeStr s
  | .arr l => nobArr l
  | .obj ms => nobMems ms

/-- Brace-freedom of every element of a list. -/
def nobArr : List JVal → Bool
  | [] => true
  | v :: vs => nobB v && nobArr vs

/-- Brace-freedom of every member key and value. -/
def nobMems : List (String × JVal) → Bool
  | [] => true
  | (k, v) :: ms => braceFreeStr k && nobB v && nobMems ms

end

/-- Python dict assignment `d[k] = v`: replace the value at an existing
key in place, else append at the end. -/
def insertKV : Record → String → JVal → Record
  | [], k, v => [(k, v)]
  | (k2, v2) :: ms, k, v =>
    if k2 = k then (k2, v) :: ms else (k2, v2) :: insertKV ms k v

/-- Unescaping of a single-character JSON escape, as Python's
`py_scanstring` backslash table. -/
def escUnmap (c : Char) : Option Char :=
  if c = '"' then some '"'
  else if c = '\\' then some '\\'
  else if c = '/' then some '/'
  else if c = 'b' then some '\u0008'
  else if c = 'f' then some '\u000C'
  else if c = 'n' then some '\n'
  else if c = 'r' then some '\r'
  else if c = 't' then some '\t'
  else none

/-- Value of one hexadecimal digit. -/
def hexVal (c : Char) : Option Nat :=
  let n := c.toNat
  if 48 ≤ n && n ≤ 57 then some (n - 48)
  else if 97 ≤ n && n ≤ 102 then some (n - 87)
  else if 65 ≤ n && n ≤ 70 then some (n - 55)
  else none

/-- Value of a four-digit hexadecimal escape body. -/
def hex4 (a b c d : Char) : Option Nat := do
  let x ← hexVal a
  let y ← hexVal b
  let z ← hexVal c
  let w ← hexVal d
  pure (4096 * x + 256 * y + 16 * z + w)


/-- Resolution of the text after a backslash: a `\\uXXXX` escape (with
surrogate-pair handling: a high surrogate must be followed by a second
`\\u` escape holding a low surrogate, and a lone surrogate is rejected
since Lean strings cannot carry one — the modelled divergence from
CPython, which admits lone surrogates), or a single-character escape
via `escUnmap`.  Returns the decoded character and the remaining
text. -/
def resolveEscape : List Char → Option (Char × List Char)
  | [] => none
  | e :: rest2 =>
    if e = 'u' then
      match rest2 with
      | h1 :: h2 :: h3 :: h4 :: rest3 =>
        match hex4 h1 h2 h3 h4 with
        | none => none
        | some code =>
          if 0xD800 ≤ code && code ≤ 0xDBFF then
            match rest3 with
            | b1 :: b2 :: g1 :: g2 :: g3 :: g4 :: rest4 =>
              if b1 = '\\' && b2 = 'u' then
                match hex4 g1 g2 g3 g4 with
                | none => none
                | some code2 =>
                  if 0xDC00 ≤ code2 && code2 ≤ 0xDFFF then
                    some (Char.ofNat (0x10000 + (code - 0xD800) * 0x400 + (code2 - 0xDC00)), rest4)
                  else none
              else none
            | _ => none
          else if 0xDC00 ≤ code && code ≤ 0xDFFF then none
          else some (Char.ofNat code, rest3)
      | _ => none
    else
      match escUnmap e with
      | some c2 => some (c2, rest2)
      | none => none

/-- Python's `py_scanstring` after the opening quote: consume until the
closing quote, resolving escapes and rejecting raw control characters
(`strict=True`).  Each step consumes one unit of fuel and at least one
character, so fuel one above the text length always suffices. -/
def lexStringAux : Nat → List Char → List Char → Option (String × List Char)
  | 0, _, _ => none
  | fuel + 1, acc, cs =>
    match cs with
    | [] => none
    | c :: rest =>
      if c = '"' then some (String.mk acc.reverse, rest)
      else if c = '\\' then
        match resolveEscape rest with
        | some p => lexStringAux fuel (p.1 :: acc) p.2
        | none => none
      else if c.toNat < 0x20 then none
      else lexStringAux fuel (c :: acc) rest

/-- Lexing of an unsigned JSON integer: `0`, or a nonzero digit followed
by digits (the `(?:0|[1-9]\d*)` part of the scanner's number regex). -/
def lexNat : List Char → Option (Nat × List Char)
  | [] => none
  | c :: rest =>
    if c = '0' then some (0, rest)
    else if c.isDigit then
      some (charsToNat (c :: rest.takeWhile Char.isDigit), rest.dropWhile Char.isDigit)
    else none

/-- Lexing of a JSON integer with optional sign. -/
def lexNum : List Char → Option (Int × List Char)
  | [] => none
  | c :: rest =>
    if c = '-' then (lexNat rest).map (fun p => (-(p.1 : Int), p.2))
    else (lexNat (c :: rest)).map (fun p => ((p.1 : Int), p.2))

/-- The scanner's literal comparison `s[idx:idx+4] == 'null'` after the
initial character. -/
def expectNull : List Char → Option (JVal × List Char)
  | 'u' :: 'l' :: 'l' :: r => some (.null, r)
  | _ => none

/-- The scanner's literal comparison for `true` after the `t`. -/
def expectTrue : List Char → Option (JVal × List Char)
  | 'r' :: 'u' :: 'e' :: r => some (.bool true, r)
  | _ => none

/-- The scanner's literal comparison for `false` after the `f`. -/
def expectFalse : List Char → Option (JVal × List Char)
  | 'a' :: 'l' :: 's' :: 'e' :: r => some (.bool false, r)
  | _ => none

mutual

/-- Python's `scan_once` at a value position (whitespace already
skipped): dispatch on the first character to a string, object, array,
literal or number.  Fuel bounds the recursion; every helper consumes one
unit, so the recursion is structural and computable by the kernel. -/
def parseVal : Nat → List Char → Option (JVal × List Char)
  | 0, _ => none
  | fuel + 1, cs =>
    match cs with
    | [] => none
    | c :: cs2 =>
      if c = '"' then (lexStringAux (cs2.length + 1) [] cs2).map (fun p => (JVal.str p.1, p.2))
      else if c = '{' then parseObjBody fuel (skipWs cs2)
      else if c = '[' then parseArrBody fuel (skipWs cs2)
      else if c = 'n' then expectNull cs2
      else if c = 't' then expectTrue cs2
      else if c = 'f' then expectFalse cs2
      else (lexNum (c :: cs2)).map (fun p => (JVal.num p.1, p.2))

/-- `JSONObject` after the opening brace and whitespace: an immediate
`}` yields the empty dict, otherwise a quoted key must follow. -/
def parseObjBody : Nat → List Char → Option (JVal × List Char)
  | 0, _ => none
  | fuel + 1, cs =>
    match cs with
    | '}' :: r => some (.obj [], r)
    | '"' :: cs3 =>
      (lexStringAux (cs3.length + 1) [] cs3).bind
        (fun p => parseMemberVal fuel [] p.1 (skipWs p.2))
    | _ => none

/-- After an object key: expect `:` then the member's value, then the
member loop with the key inserted into the accumulated dict. -/
def parseMemberVal : Nat → Record → String → List Char → Option (JVal × List Char)
  | 0, _, _, _ => none
  | fuel + 1, acc, k, cs =>
    match cs with
    | ':' :: r2 =>
      (parseVal fuel (skipWs r2)).bind (fun q =>
        parseMembers fuel (skipWs q.2) (insertKV acc k q.1))
    | _ => none

/-- After one member of an object: expect `,` and a further member, or
`}` closing the object built so far (duplicate keys overwrite in place
via `insertKV`). -/
def parseMembers : Nat → List Char → Record → Option (JVal × List Char)
  | 0, _, _ => none
  | fuel + 1, cs, acc =>
    match cs with
    | '}' :: r => some (.obj acc, r)
    | ',' :: r => parseMemberKey fuel acc (skipWs r)
    | _ => none

/-- After the comma of an object member list: a quoted key must follow. -/
def parseMemberKey : Nat → Record → List Char → Option (JVal × List Char)
  | 0, _, _ => none
  | fuel + 1, acc, cs =>
    match cs with
    | '"' :: cs2 =>
      (lexStringAux (cs2.length + 1) [] cs2).bind
        (fun p => parseMemberVal fuel acc p.1 (skipWs p.2))
    | _ => none

/-- `JSONArray` after the opening bracket and whitespace: an immediate
`]` yields the empty list, otherwise parse the first element and then
the element loop. -/
def parseArrBody : Nat → List Char → Option (JVal × List Char)
  | 0, _ => none
  | fuel + 1, cs =>
    match cs with
    | [] => none
    | c2 :: r =>
      if c2 = ']' then some (.arr [], r)
      else
        (parseVal fuel (c2 :: r)).bind (fun q =>
          (parseElems fuel (skipWs q.2)).map (fun w => (JVal.arr (q.1 :: w.1), w.2)))

/-- After one element of an array: expect `,` and a further element, or
`]`. -/
def parseElems : Nat → List Char → Option (List JVal × List Char)
  | 0, _ => none
  | fuel + 1, cs =>
    match cs with
    | ']' :: r => some ([], r)
    | ',' :: r =>
      (parseVal fuel (skipWs r)).bind (fun q =>
        (parseElems fuel (skipWs q.2)).map (fun w => (q.1 :: w.1, w.2)))
    | _ => none

end

mutual

/-- Fuel sufficient for `parseVal` on the serialization of a value. -/
def needV : JVal → Nat
  | .arr [] => 2
  | .arr (v :: vs) => 2 + max (needV v) (needE vs)
  | .obj [] => 2
  | .obj ((_, v) :: ms) => 3 + max (needV v) (needM ms)
  | _ => 1

/-- Fuel sufficient for `parseElems` on remaining serialized elements. -/
def needE : List JVal → Nat
  | [] => 1
  | v :: vs => 1 + max (needV v) (needE vs)

/-- Fuel sufficient for `parseMembers` on remaining serialized members. -/
def needM : List (String × JVal) → Nat
  | [] => 1
  | (_, v) :: ms => 3 + max (needV v) (needM ms)

end

/-- Python `json.loads`: skip leading whitespace, parse one value, and
require that only whitespace remains.  `none` models a raised
`JSONDecodeError`. -/
def jsonLoadsL (cs : List Char) : Option JVal :=
  match parseVal (cs.length + 1) (skipWs cs) with
  | some (v, rest) => if skipWs rest = [] then some v else none
  | none => none

/-- The mapping check of Strategies 2-4: keep a value only if it is a
JSON object. -/
def jvalToRecord : JVal → Option Record
  | .obj d => some d
  | _ => none

/-- The parse of one stripped line in Strategy 3: `none` when the line
is blank, fails to parse, or parses to a non-mapping. -/
def lineToRecord (line : List Char) : Option Record :=
  let l := pyStripL line
  if l.isEmpty then none
  else
    match jsonLoadsL l with
    | some (.obj d) => some d
    | _ => none

/-- Strategy 3 in isolation: split into lines and keep each line that
parses to a mapping. -/
def strategy3L (content : List Char) : List Record :=
  (splitNLChars content).filterMap lineToRecord

/-- The concatenated-objects scan of `parse_json_file` (lines 80-97):
walk the text with a brace counter; at a `{` seen at depth zero record
the start; when a `}` returns the depth to zero, slice
`content[start_pos:i+1]`, parse it, and keep it if it is a mapping.
`content` is the whole text, the first list argument the unscanned
suffix, then the index, `brace_count`, `start_pos` and the records
collected so far. -/
def strategy4Aux (content : List Char) :
    List Char → Nat → Int → Nat → List Record → List Record
  | [], _, _, _, objects => objects
  | c :: rest, i, braceCount, startPos, objects =>
    if c = '{' then
      strategy4Aux content rest (i + 1) (braceCount + 1)
        (if braceCount = 0 then i else startPos) objects
    else if c = '}' then
      if braceCount - 1 = 0 then
        match jsonLoadsL ((content.drop startPos).take (i + 1 - startPos)) with
        | some (.obj d) =>
          strategy4Aux content rest (i + 1) (braceCount - 1) startPos (objects ++ [d])
        | _ => strategy4Aux content rest (i + 1) (braceCount - 1) startPos objects
      else strategy4Aux content rest (i + 1) (braceCount - 1) startPos objects
    else strategy4Aux content rest (i + 1) braceCount startPos objects

/-- Strategy 4 in isolation: the scan over the whole text with empty
initial state. -/
def strategy4L (content : List Char) : List Record :=
  strategy4Aux content content 0 0 0 []

/-- The body of `parse_json_file` after the file has been read and
stripped (lines 40-99,108): one whole-document parse serves
Strategies 1 and 2 (the source parses twice with the same
deterministic result); on a mapping return it alone; on an array return
its mapping elements (even when there are none); otherwise run the
line-delimited pass, and if it found nothing, the concatenated scan on
the accumulated (empty) record list. -/
def parseCoreL (content : List Char) : List Record :=
  match jsonLoadsL content with
  | some (.obj d) => [d]
  | some (.arr items) =>
    items.foldl (fun objects item =>
      match item with
      | .obj d => objects ++ [d]
      | _ => objects) []
  | _ =>
    let objects := (splitNLChars content).foldl (fun objects line =>
      let l := pyStripL line
      if l.isEmpty then objects
      else
        match jsonLoadsL l with
        | some (.obj d) => objects ++ [d]
        | _ => objects) []
    if objects.isEmpty then strategy4Aux content content 0 0 0 objects else objects

/-- `parse_json_file` on the text of the input file: the source strips
the text on reading (line 38) and then runs the strategies. -/
def parse_json_file (text : String) : List Record :=
  parseCoreL (pyStripL text.data)

/-- Newline-plus-indentation before an item at the given nesting level:
Python's `'\n' + indent * level` when an indent is given, nothing when
`indent=None`.  A negative indent behaves as zero, as `' ' * n` does. -/
def nlInd (indent : Option Int) (level : Nat) : List Char :=
  match indent with
  | none => []
  | some n => '\n' :: List.replicate (n.toNat * level) ' '

/-- The item separator `json.dumps` uses in pretty mode: `', '` when
`indent=None`, a bare comma (followed by a fresh indented line) else. -/
def prettySep (indent : Option Int) : List Char :=
  match indent with
  | none => [',', ' ']
  | some _ => [',']

mutual

/-- `json.dumps(v, ensure_ascii=False, indent=indent)`: the
serialization used by the writer when `pretty` is true (default
separators `(', ', ': ')`, multi-line when an indent is given). -/
def prettyVal (indent : Option Int) (level : Nat) : JVal → List Char
  | .null => 'n' :: ['u', 'l', 'l']
  | .bool true => 't' :: ['r', 'u', 'e']
  | .bool false => 'f' :: ['a', 'l', 's', 'e']
  | .num i => intToChars i
  | .str s => '"' :: (escChars s.data ++ ['"'])
  | .arr [] => ['[', ']']
  | .arr (v :: vs) =>
    '[' :: (nlInd indent (level + 1) ++ prettyVal indent (level + 1) v ++
      prettyElems indent (level + 1) vs ++ nlInd indent level ++ [']'])
  | .obj [] => ['{', '}']
  | .obj ((k, v) :: ms) =>
    '{' :: (nlInd indent (level + 1) ++
      ('"' :: (escChars k.data ++ ['"', ':', ' '] ++ prettyVal indent (level + 1) v)) ++
      prettyMems indent (level + 1) ms ++ nlInd indent level ++ ['}'])

/-- Remaining array elements in pretty mode. -/
def prettyElems (indent : Option Int) (level : Nat) : List JVal → List Char
  | [] => []
  | v :: vs =>
    prettySep indent ++ nlInd indent level ++ prettyVal indent level v ++
      prettyElems indent level vs

/-- Remaining object members in pretty mode. -/
def prettyMems (indent : Option Int) (level : Nat) : List (String × JVal) → List Char
  | [] => []
  | (k, v) :: ms =>
    prettySep indent ++ nlInd indent level ++
      ('"' :: (escChars k.data ++ ['"', ':', ' '] ++ prettyVal indent level v)) ++
      prettyMems indent level ms

end

/-- `write_jsonl_file` (lines 122-129): for each record emit its
serialization — pretty with the given indent when `pretty` is set,
compact separators otherwise — followed by one newline.  The returned
string is the content written to the sink. -/
def write_jsonl_file (objects : List Record) (pretty : Bool) (indent : Option Int) : String :=
  String.mk (joinAll (objects.map (fun o =>
    if pretty then prettyVal indent 0 (.obj o) else dumpVal (.obj o))))

/-- The exit status of `main` (lines 161-180): `1` when the input file
does not exist, `1` when no records were recovered, `1` when the sink
write fails (`write_jsonl_file`'s `sys.exit(1)`), else `0`.  The
environment is abstracted into: whether the input path exists, the text
it holds, and whether the sink accepts the write. -/
def mainExitCode (inputExists : Bool) (content : String) (writeOk : Bool) : Nat :=
  if inputExists = false then 1
  else if parse_json_file content = [] then 1
  else if writeOk = false then 1
  else 0

/-- The indent value `main` passes to the writer (line 180):
`args.indent` when `--pretty` is given, `None` otherwise. -/
def mainIndentArg (pretty : Bool) (indent : Int) : Option Int :=
  if pretty then some indent else none

/-- Contribution of one character to the brace counter of the
concatenated-objects scan. -/
def braceDelta (c : Char) : Int :=
  if c = '{' then 1 else if c = '}' then -1 else 0

/-- Net brace balance of a character list. -/
def bal : List Char → Int
  | [] => 0
  | c :: cs => braceDelta c + bal cs

/-- Concatenation with no separators, the input shape of the
concatenated-objects fallback. -/
def concatAll : List (List Char) → List Char
  | [] => []
  | d :: ds => d ++ concatAll ds

/-- Condition under which a value's serialization can be re-parsed when
followed by `rest`: after a bare integer the next character must not be
a digit (any other value ends with a delimiter). -/
def numOk : JVal → List Char → Prop
  | .num _, rest => ∀ c, rest.head? = some c → c.isDigit = false
  | _, _ => True

/-!
### Utility lemmas: whitespace, digits, splitting and joining
-/

theorem skipWs_cons_false {c : Char} (h : isJsonWs c = false) (cs : List Char) :
    skipWs (c :: cs) = c :: cs := by
  simp [skipWs, List.dropWhile_cons, h]

theorem skipWs_cons_true {c : Char} (h : isJsonWs c = true) (cs : List Char) :
    skipWs (c :: cs) = skipWs cs := by
  simp [skipWs, List.dropWhile_cons, h]

theorem digitVal_digitChar : ∀ d, d < 10 → digitVal (digitChar d) = d := by decide

theorem isDigit_digitChar : ∀ d, d < 10 → (digitChar d).isDigit = true := by decide

theorem digitChar_ne_zero : ∀ d, d < 10 → d ≠ 0 → ¬(digitChar d = '0') := by decide

theorem digitChar_ne_minus : ∀ d, d < 10 → ¬(digitChar d = '-') := by decide

theorem natToCharsAux_irrel : ∀ f1 : Nat, ∀ f2 n : Nat, n < f1 → n < f2 →
    natToCharsAux f1 n = natToCharsAux f2 n := by
  intro f1
  induction f1 with
  | zero => omega
  | succ f1 IH =>
    intro f2 n h1 h2
    obtain ⟨g2, rfl⟩ : ∃ g2, f2 = g2 + 1 := ⟨f2 - 1, by omega⟩
    by_cases h : n < 10
    · simp [natToCharsAux, h]
    · have hlt : n / 10 < n := Nat.div_lt_self (by omega) (by omega)
      simp [natToCharsAux, h, IH g2 (n / 10) (by omega) (by omega)]

/-- One-step unfolding of the decimal printer, in the shape of the
recursion of Python's int `repr`. -/
theorem natToChars_eq (n : Nat) : natToChars n =
    (if n < 10 then [digitChar n]
     else natToChars (n / 10) ++ [digitChar (n % 10)]) := by
  by_cases h : n < 10
  · simp [natToChars, natToCharsAux, h]
  · have hlt : n / 10 < n := Nat.div_lt_self (by omega) (by omega)
    rw [if_neg h]
    show (if n < 10 then [digitChar n]
          else natToCharsAux n (n / 10) ++ [digitChar (n % 10)]) = _
    rw [if_neg h, natToCharsAux_irrel n (n / 10 + 1) (n / 10) (by omega) (by omega)]
    rfl

theorem natToChars_zero : natToChars 0 = ['0'] := by decide

/-- Every printed natural starts with a digit character (nonzero when the
number is positive) and continues with digit characters. -/
theorem natToChars_shape : ∀ n, ∃ d cs, natToChars n = digitChar d :: cs ∧ d < 10 ∧
    (0 < n → d ≠ 0) ∧ (∀ c ∈ cs, c.isDigit = true) := by
  intro n
  induction n using Nat.strong_induction_on with
  | _ n IH =>
    rw [natToChars_eq]
    split
    · next h =>
      refine ⟨n, [], rfl, h, ?_, by simp⟩
      intro hpos
      omega
    · next h =>
      obtain ⟨d, cs, heq, hd, hdz, hdig⟩ := IH (n / 10) (Nat.div_lt_self (by omega) (by omega))
      refine ⟨d, cs ++ [digitChar (n % 10)], by rw [heq]; simp, hd, fun _ => hdz (by omega), ?_⟩
      intro c hc
      rcases List.mem_append.mp hc with h1 | h1
      · exact hdig c h1
      · simp at h1
        subst h1
        exact isDigit_digitChar _ (by omega)

theorem natToChars_all_digits : ∀ n c, c ∈ natToChars n → c.isDigit = true := by
  intro n c hc
  obtain ⟨d, cs, heq, hd, _, hdig⟩ := natToChars_shape n
  rw [heq] at hc
  rcases List.mem_cons.mp hc with h1 | h1
  · subst h1
    exact isDigit_digitChar _ hd
  · exact hdig c h1

theorem charsToNat_append (l1 l2 : List Char) :
    charsToNat (l1 ++ l2) = l2.foldl (fun a c => 10 * a + digitVal c) (charsToNat l1) := by
  simp [charsToNat, List.foldl_append]

theorem charsToNat_natToChars : ∀ n, charsToNat (natToChars n) = n := by
  intro n
  induction n using Nat.strong_induction_on with
  | _ n IH =>
    rw [natToChars_eq]
    split
    · next h =>
      simp [charsToNat, digitVal_digitChar n h]
    · next h =>
      rw [charsToNat_append, IH (n / 10) (Nat.div_lt_self (by omega) (by omega))]
      simp only [List.foldl_cons, List.foldl_nil]
      rw [digitVal_digitChar (n % 10) (by omega)]
      omega

theorem takeWhile_all_append {p : Char → Bool} : ∀ (l1 l2 : List Char),
    (∀ c ∈ l1, p c = true) → (∀ c, l2.head? = some c → p c = false) →
    (l1 ++ l2).takeWhile p = l1 ∧ (l1 ++ l2).dropWhile p = l2 := by
  intro l1
  induction l1 with
  | nil =>
    intro l2 _ h2
    cases l2 with
    | nil => simp
    | cons c t =>
      have := h2 c (by simp)
      simp [List.takeWhile_cons, List.dropWhile_cons, this]
  | cons c t IH =>
    intro l2 h1 h2
    have hc := h1 c (by simp)
    have := IH l2 (fun x hx => h1 x (by simp [hx])) h2
    simp [List.takeWhile_cons, List.dropWhile_cons, hc, this.1, this.2]

theorem lexNat_print (n : Nat) (rest : List Char)
    (hrest : ∀ c, rest.head? = some c → c.isDigit = false) :
    lexNat (natToChars n ++ rest) = some (n, rest) := by
  by_cases h0 : n = 0
  · subst h0
    rw [natToChars_zero]
    simp [lexNat]
  · obtain ⟨d, cs, heq, hd, hdz, hdig⟩ := natToChars_shape n
    have hdz := hdz (by omega)
    have htd := takeWhile_all_append cs rest hdig hrest
    rw [heq]
    simp only [List.cons_append, lexNat, digitChar_ne_zero d hd hdz, if_false,
      isDigit_digitChar d hd, if_true, htd.1, htd.2]
    have : charsToNat (digitChar d :: cs) = n := by
      rw [← heq]
      exact charsToNat_natToChars n
    rw [this]

theorem lexNum_print (i : Int) (rest : List Char)
    (hrest : ∀ c, rest.head? = some c → c.isDigit = false) :
    lexNum (intToChars i ++ rest) = some (i, rest) := by
  unfold intToChars
  by_cases hi : i < 0
  · have habs : -(i.natAbs : Int) = i := by omega
    simp only [hi, if_true, List.cons_append, lexNum, if_pos rfl,
      lexNat_print i.natAbs rest hrest, Option.map, habs]
  · have htn : ((i.toNat : Int)) = i := by omega
    simp only [hi, if_false]
    obtain ⟨d, cs, heq, hd, _, _⟩ := natToChars_shape i.toNat
    rw [heq, List.cons_append, lexNum, if_neg (digitChar_ne_minus d hd), ← List.cons_append, ← heq,
      lexNat_print i.toNat rest hrest]
    simp only [Option.map, htn]

theorem dropWhile_id_of_head {p : Char → Bool} : ∀ l : List Char,
    (∀ c, l.head? = some c → p c = false) → l.dropWhile p = l := by
  intro l h
  cases l with
  | nil => rfl
  | cons a t => simp [List.dropWhile_cons, h a (by simp)]

theorem pyStripL_id {l : List Char}
    (hh : ∀ c, l.head? = some c → isPyWs c = false)
    (hl : ∀ c, l.getLast? = some c → isPyWs c = false) : pyStripL l = l := by
  unfold pyStripL
  rw [dropWhile_id_of_head l hh, dropWhile_id_of_head l.reverse (by
    intro c hc
    exact hl c (by rwa [List.head?_reverse] at hc)), List.reverse_reverse]

theorem pyStripL_sandwich {l : List Char} {c : Char}
    (hh : ∀ x, l.head? = some x → isPyWs x = false)
    (hl : ∀ x, l.getLast? = some x → isPyWs x = false)
    (hc : isPyWs c = true) : pyStripL (l ++ [c]) = l := by
  cases l with
  | nil => simp [pyStripL, hc]
  | cons a t =>
    unfold pyStripL
    rw [dropWhile_id_of_head ((a :: t) ++ [c]) (by
      intro x hx
      simp at hx
      exact hh x (by simp [hx]))]
    rw [List.reverse_append, List.reverse_singleton, List.singleton_append,
      List.dropWhile_cons, hc]
    simp only [if_true]
    rw [dropWhile_id_of_head (a :: t).reverse (by
      intro x hx
      exact hl x (by rwa [List.head?_reverse] at hx)), List.reverse_reverse]

theorem splitNL_no_nl : ∀ d : List Char, '\n' ∉ d → splitNLChars d = [d] := by
  intro d
  induction d with
  | nil =>
    intro _
    rfl
  | cons c t IH =>
    intro h
    have hc : ¬(c = '\n') := fun he => h (by simp [he])
    rw [splitNLChars, if_neg hc, IH (fun ht => h (by simp [ht]))]

theorem splitNL_append : ∀ (d l : List Char), '\n' ∉ d →
    splitNLChars (d ++ '\n' :: l) = d :: splitNLChars l := by
  intro d
  induction d with
  | nil =>
    intro l _
    simp [splitNLChars]
  | cons c t IH =>
    intro l h
    have hc : ¬(c = '\n') := fun he => h (by simp [he])
    rw [List.cons_append, splitNLChars, if_neg hc, IH l (fun ht => h (by simp [ht]))]

theorem splitNL_joinAll : ∀ ds : List (List Char), (∀ d ∈ ds, '\n' ∉ d) →
    splitNLChars (joinAll ds) = ds ++ [[]] := by
  intro ds
  induction ds with
  | nil =>
    intro _
    rfl
  | cons d t IH =>
    intro h
    rw [joinAll, splitNL_append d (joinAll t) (h d (by simp)),
      IH (fun x hx => h x (by simp [hx])), List.cons_append]

theorem splitNL_joinNL : ∀ ds : List (List Char), ds ≠ [] → (∀ d ∈ ds, '\n' ∉ d) →
    splitNLChars (joinNL ds) = ds := by
  intro ds
  induction ds with
  | nil =>
    intro h _
    exact absurd rfl h
  | cons d t IH =>
    intro _ h
    cases t with
    | nil => exact splitNL_no_nl d (h d (by simp))
    | cons d2 t2 =>
      have h2 : splitNLChars (joinNL (d2 :: t2)) = d2 :: t2 :=
        IH (List.cons_ne_nil _ _) (fun x hx => h x (by simp [hx]))
      show splitNLChars (d ++ '\n' :: joinNL (d2 :: t2)) = d :: d2 :: t2
      rw [splitNL_append d _ (h d (by simp)), h2]

theorem joinAll_eq_joinNL : ∀ ds : List (List Char), ds ≠ [] →
    joinAll ds = joinNL ds ++ ['\n'] := by
  intro ds
  induction ds with
  | nil =>
    intro h
    exact absurd rfl h
  | cons d t IH =>
    intro _
    cases t with
    | nil => rfl
    | cons d2 t2 =>
      have h2 : joinAll (d2 :: t2) = joinNL (d2 :: t2) ++ ['\n'] := IH (List.cons_ne_nil _ _)
      show d ++ '\n' :: joinAll (d2 :: t2) = (d ++ '\n' :: joinNL (d2 :: t2)) ++ ['\n']
      rw [h2]
      simp

/-!
### Round trip of the string escaper through the string lexer
-/

theorem hexVal_hexDigitChar : ∀ m, m < 16 → hexVal (hexDigitChar m) = some m := by decide

theorem hex4_low (t : Nat) (ht : t < 32) :
    hex4 '0' '0' (hexDigitChar (t / 16)) (hexDigitChar (t % 16)) = some t := by
  have h1 : hexVal '0' = some 0 := by decide
  have h2 := hexVal_hexDigitChar (t / 16) (by omega)
  have h3 := hexVal_hexDigitChar (t % 16) (by omega)
  simp [hex4, h1, h2, h3]
  omega

theorem lexStringAux_step_quote (f : Nat) (acc rest : List Char) :
    lexStringAux (f + 1) acc ('"' :: rest) = some (String.mk acc.reverse, rest) := rfl

theorem lexStringAux_step_esc (f : Nat) (acc rest : List Char) (c2 : Char) (tail : List Char)
    (h : resolveEscape rest = some (c2, tail)) :
    lexStringAux (f + 1) acc ('\\' :: rest) = lexStringAux f (c2 :: acc) tail := by
  show (match resolveEscape rest with
        | some p => lexStringAux f (p.1 :: acc) p.2
        | none => none) = _
  rw [h]

theorem lexStringAux_step_plain (f : Nat) (acc : List Char) (c : Char) (rest : List Char)
    (h1 : ¬(c = '"')) (h2 : ¬(c = '\\')) (h3 : ¬(c.toNat < 32)) :
    lexStringAux (f + 1) acc (c :: rest) = lexStringAux f (c :: acc) rest := by
  show (if c = '"' then some (String.mk acc.reverse, rest)
        else if c = '\\' then
          match resolveEscape rest with
          | some p => lexStringAux f (p.1 :: acc) p.2
          | none => none
        else if c.toNat < 0x20 then none
        else lexStringAux f (c :: acc) rest) = _
  simp [h1, h2, h3]

theorem escChar_len_ge_one (c : Char) : 1 ≤ (escChar c).length := by
  unfold escChar
  repeat' split
  all_goals simp

theorem esc_len_lt (l tail : List Char) :
    (escChars l).length < (escChars l ++ tail).length + 1 := by
  rw [List.length_append]
  omega

/-- The lexer undoes the escaper: scanning the escaped body of a string
followed by the closing quote returns the original characters appended
to the accumulator. -/
theorem lexStringAux_esc : ∀ (l acc rest : List Char) (f : Nat),
    (escChars l).length < f →
    lexStringAux f acc (escChars l ++ '"' :: rest) =
      some (String.mk (acc.reverse ++ l), rest) := by
  intro l
  induction l with
  | nil =>
    intro acc rest f hlen
    obtain ⟨f2, rfl⟩ : ∃ f2, f = f2 + 1 := ⟨f - 1, by omega⟩
    show lexStringAux (f2 + 1) acc ('"' :: rest) = _
    rw [lexStringAux_step_quote]
    simp
  | cons c t IH =>
    intro acc rest f hlen
    obtain ⟨f2, rfl⟩ : ∃ f2, f = f2 + 1 := ⟨f - 1, by omega⟩
    have hlen2 : (escChars t).length < f2 := by
      have h9 : escChars (c :: t) = escChar c ++ escChars t := rfl
      have h10 := escChar_len_ge_one c
      rw [h9, List.length_append] at hlen
      omega
    show lexStringAux (f2 + 1) acc ((escChar c ++ escChars t) ++ '"' :: rest) = _
    rw [List.append_assoc]
    by_cases h1 : c = '"'
    · subst h1
      rw [(by decide : escChar '"' = ['\\', '"'])]
      simp only [List.cons_append, List.nil_append]
      have hre : resolveEscape ('"' :: (escChars t ++ '"' :: rest)) =
          some ('"', escChars t ++ '"' :: rest) := by
        simp [resolveEscape, escUnmap]
      rw [lexStringAux_step_esc _ _ _ _ _ hre]
      simpa using IH ('\"' :: acc) rest f2 hlen2
    · by_cases h2 : c = '\\'
      · subst h2
        rw [(by decide : escChar '\\' = ['\\', '\\'])]
        simp only [List.cons_append, List.nil_append]
        have hre : resolveEscape ('\\' :: (escChars t ++ '"' :: rest)) =
            some ('\\', escChars t ++ '"' :: rest) := by
          simp [resolveEscape, escUnmap]
        rw [lexStringAux_step_esc _ _ _ _ _ hre]
        simpa using IH ('\\' :: acc) rest f2 hlen2
      · by_cases h3 : c = '\n'
        · subst h3
          rw [(by decide : escChar '\n' = ['\\', 'n'])]
          simp only [List.cons_append, List.nil_append]
          have hre : resolveEscape ('n' :: (escChars t ++ '"' :: rest)) =
              some ('\n', escChars t ++ '"' :: rest) := by
            simp [resolveEscape, escUnmap]
          rw [lexStringAux_step_esc _ _ _ _ _ hre]
          simpa using IH ('\n' :: acc) rest f2 hlen2
        · by_cases h4 : c = '\r'
          · subst h4
            rw [(by decide : escChar '\r' = ['\\', 'r'])]
            simp only [List.cons_append, List.nil_append]
            have hre : resolveEscape ('r' :: (escChars t ++ '"' :: rest)) =
                some ('\r', escChars t ++ '"' :: rest) := by
              simp [resolveEscape, escUnmap]
            rw [lexStringAux_step_esc _ _ _ _ _ hre]
            simpa using IH ('\r' :: acc) rest f2 hlen2
          · by_cases h5 : c = '\t'
            · subst h5
              rw [(by decide : escChar '\t' = ['\\', 't'])]
              simp only [List.cons_append, List.nil_append]
              have hre : resolveEscape ('t' :: (escChars t ++ '"' :: rest)) =
                  some ('\t', escChars t ++ '"' :: rest) := by
                simp [resolveEscape, escUnmap]
              rw [lexStringAux_step_esc _ _ _ _ _ hre]
              simpa using IH ('\t' :: acc) rest f2 hlen2
            · by_cases h6 : c = '\u0008'
              · subst h6
                rw [(by decide : escChar '\u0008' = ['\\', 'b'])]
                simp only [List.cons_append, List.nil_append]
                have hre : resolveEscape ('b' :: (escChars t ++ '"' :: rest)) =
                    some ('\u0008', escChars t ++ '"' :: rest) := by
                  simp [resolveEscape, escUnmap]
                rw [lexStringAux_step_esc _ _ _ _ _ hre]
                simpa using IH ('\u0008' :: acc) rest f2 hlen2
              · by_cases h7 : c = '\u000C'
                · subst h7
                  rw [(by decide : escChar '\u000C' = ['\\', 'f'])]
                  simp only [List.cons_append, List.nil_append]
                  have hre : resolveEscape ('f' :: (escChars t ++ '"' :: rest)) =
                      some ('\u000C', escChars t ++ '"' :: rest) := by
                    simp [resolveEscape, escUnmap]
                  rw [lexStringAux_step_esc _ _ _ _ _ hre]
                  simpa using IH ('\u000C' :: acc) rest f2 hlen2
                · by_cases h8 : c.toNat < 32
                  · have hesc : escChar c =
                        ['\\', 'u', '0', '0', hexDigitChar (c.toNat / 16), hexDigitChar (c.toNat % 16)] := by
                      unfold escChar
                      simp [h1, h2, h3, h4, h5, h6, h7, h8]
                    rw [hesc]
                    simp only [List.cons_append, List.nil_append]
                    have hno1 : (decide (55296 ≤ c.toNat) && decide (c.toNat ≤ 56319)) = false := by
                      have hd : (decide (55296 ≤ c.toNat)) = false := by
                        simp
                        omega
                      simp [hd]
                    have hno2 : (decide (56320 ≤ c.toNat) && decide (c.toNat ≤ 57343)) = false := by
                      have hd : (decide (56320 ≤ c.toNat)) = false := by
                        simp
                        omega
                      simp [hd]
                    have hre : resolveEscape
                        ('u' :: '0' :: '0' :: hexDigitChar (c.toNat / 16) ::
                          hexDigitChar (c.toNat % 16) :: (escChars t ++ '"' :: rest)) =
                        some (c, escChars t ++ '"' :: rest) := by
                      simp [resolveEscape, hex4_low c.toNat h8, hno1, hno2, Char.ofNat_toNat]
                    rw [lexStringAux_step_esc _ _ _ _ _ hre]
                    simpa using IH (c :: acc) rest f2 hlen2
                  · have hesc : escChar c = [c] := by
                      unfold escChar
                      simp [h1, h2, h3, h4, h5, h6, h7, h8]
                    rw [hesc]
                    simp only [List.cons_append, List.nil_append]
                    rw [lexStringAux_step_plain _ _ _ _ h1 h2 h8]
                    simpa using IH (c :: acc) rest f2 hlen2

/-!
### Step lemmas for the parser and shape facts for the serializer
-/

theorem pv_succ (f : Nat) (c : Char) (cs2 : List Char) :
    parseVal (f + 1) (c :: cs2) =
      (if c = '"' then (lexStringAux (cs2.length + 1) [] cs2).map (fun p => (JVal.str p.1, p.2))
       else if c = '{' then parseObjBody f (skipWs cs2)
       else if c = '[' then parseArrBody f (skipWs cs2)
       else if c = 'n' then expectNull cs2
       else if c = 't' then expectTrue cs2
       else if c = 'f' then expectFalse cs2
       else (lexNum (c :: cs2)).map (fun p => (JVal.num p.1, p.2))) := rfl

theorem pob_rbrace (f : Nat) (r : List Char) :
    parseObjBody (f + 1) ('}' :: r) = some (.obj [], r) := rfl

theorem pob_quote (f : Nat) (cs3 : List Char) :
    parseObjBody (f + 1) ('"' :: cs3) =
      (lexStringAux (cs3.length + 1) [] cs3).bind
        (fun p => parseMemberVal f [] p.1 (skipWs p.2)) := rfl

theorem pmv_colon (f : Nat) (acc : Record) (k : String) (r2 : List Char) :
    parseMemberVal (f + 1) acc k (':' :: r2) =
      (parseVal f (skipWs r2)).bind (fun q =>
        parseMembers f (skipWs q.2) (insertKV acc k q.1)) := rfl

theorem pm_rbrace (f : Nat) (r : List Char) (acc : Record) :
    parseMembers (f + 1) ('}' :: r) acc = some (.obj acc, r) := rfl

theorem pm_comma (f : Nat) (r : List Char) (acc : Record) :
    parseMembers (f + 1) (',' :: r) acc = parseMemberKey f acc (skipWs r) := rfl

theorem pmk_quote (f : Nat) (acc : Record) (cs2 : List Char) :
    parseMemberKey (f + 1) acc ('"' :: cs2) =
      (lexStringAux (cs2.length + 1) [] cs2).bind
        (fun p => parseMemberVal f acc p.1 (skipWs p.2)) := rfl

theorem pab_cons (f : Nat) (c2 : Char) (r : List Char) :
    parseArrBody (f + 1) (c2 :: r) =
      (if c2 = ']' then some (.arr [], r)
       else (parseVal f (c2 :: r)).bind (fun q =>
         (parseElems f (skipWs q.2)).map (fun w => (JVal.arr (q.1 :: w.1), w.2)))) := rfl

theorem pe_rbrack (f : Nat) (r : List Char) :
    parseElems (f + 1) (']' :: r) = some ([], r) := rfl

theorem pe_comma (f : Nat) (r : List Char) :
    parseElems (f + 1) (',' :: r) =
      (parseVal f (skipWs r)).bind (fun q =>
        (parseElems f (skipWs q.2)).map (fun w => (q.1 :: w.1, w.2))) := rfl

theorem needV_pos : ∀ v : JVal, 1 ≤ needV v := by
  intro v
  cases v with
  | null => simp [needV]
  | bool b => simp [needV]
  | num i => simp [needV]
  | str s => simp [needV]
  | arr l =>
    cases l with
    | nil => simp [needV]
    | cons v vs =>
      simp [needV]
      omega
  | obj ms =>
    rcases ms with _ | ⟨⟨k, v⟩, ms⟩
    · simp [needV]
    · simp [needV]
      omega

theorem needE_pos : ∀ l : List JVal, 1 ≤ needE l := by
  intro l
  cases l <;> simp [needE] <;> omega

theorem needM_pos : ∀ ms : List (String × JVal), 1 ≤ needM ms := by
  intro ms
  rcases ms with _ | ⟨⟨k, v⟩, ms⟩ <;> simp [needM] <;> omega

theorem digitChar_not_special : ∀ d, d < 10 →
    (¬(digitChar d = '"') ∧ ¬(digitChar d = '{') ∧ ¬(digitChar d = '[') ∧
     ¬(digitChar d = 'n') ∧ ¬(digitChar d = 't') ∧ ¬(digitChar d = 'f') ∧
     isJsonWs (digitChar d) = false ∧ ¬(digitChar d = ']')) := by decide

/-- The compact serialization of any value starts with a character that
is not JSON whitespace and not a closing bracket. -/
theorem dump_head : ∀ v : JVal, ∃ c cs, dumpVal v = c :: cs ∧ isJsonWs c = false ∧ ¬(c = ']') := by
  intro v
  cases v with
  | null => exact ⟨'n', ['u', 'l', 'l'], by simp [dumpVal], by decide, by decide⟩
  | bool b =>
    cases b with
    | true => exact ⟨'t', ['r', 'u', 'e'], by simp [dumpVal], by decide, by decide⟩
    | false => exact ⟨'f', ['a', 'l', 's', 'e'], by simp [dumpVal], by decide, by decide⟩
  | num i =>
    by_cases hi : i < 0
    · exact ⟨'-', natToChars i.natAbs, by simp [dumpVal, intToChars, hi], by decide, by decide⟩
    · obtain ⟨d, cs, heq, hd, _, _⟩ := natToChars_shape i.toNat
      obtain ⟨_, _, _, _, _, _, hws, hrb⟩ := digitChar_not_special d hd
      exact ⟨digitChar d, cs, by simp [dumpVal, intToChars, hi, heq], hws, hrb⟩
  | str s =>
    exact ⟨'"', escChars s.data ++ ['"'], by simp [dumpVal], by decide, by decide⟩
  | arr l =>
    cases l with
    | nil => exact ⟨'[', [']'], by simp [dumpVal], by decide, by decide⟩
    | cons v vs =>
      exact ⟨'[', dumpVal v ++ dumpElemsRest vs, by simp [dumpVal], by decide, by decide⟩
  | obj ms =>
    rcases ms with _ | ⟨⟨k, v⟩, ms⟩
    · exact ⟨'{', ['}'], by simp [dumpVal], by decide, by decide⟩
    · exact ⟨'{', '"' :: (escChars k.data ++ ['"', ':'] ++ dumpVal v ++ dumpMembersRest ms),
        by simp [dumpVal], by decide, by decide⟩

/-- The serialized tail of an array element list starts with a comma or
the closing bracket. -/
theorem elemsRest_head : ∀ l : List JVal, ∃ cs,
    dumpElemsRest l = ']' :: cs ∨ dumpElemsRest l = ',' :: cs := by
  intro l
  cases l with
  | nil => exact ⟨[], Or.inl (by simp [dumpElemsRest])⟩
  | cons v vs => exact ⟨dumpVal v ++ dumpElemsRest vs, Or.inr (by simp [dumpElemsRest])⟩

/-- The serialized tail of an object member list starts with a comma or
the closing brace. -/
theorem membersRest_head : ∀ ms : List (String × JVal), ∃ cs,
    dumpMembersRest ms = '}' :: cs ∨ dumpMembersRest ms = ',' :: cs := by
  intro ms
  rcases ms with _ | ⟨⟨k, v⟩, ms⟩
  · exact ⟨[], Or.inl (by simp [dumpMembersRest])⟩
  · exact ⟨'"' :: (escChars k.data ++ ['"', ':'] ++ dumpVal v ++ dumpMembersRest ms),
      Or.inr (by simp [dumpMembersRest])⟩

theorem dump_len_pos (v : JVal) : 1 ≤ (dumpVal v).length := by
  obtain ⟨c, cs, h, _, _⟩ := dump_head v
  simp [h]

theorem elemsRest_len_pos (l : List JVal) : 1 ≤ (dumpElemsRest l).length := by
  rcases elemsRest_head l with ⟨cs, h | h⟩ <;> simp [h]

theorem membersRest_len_pos (ms : List (String × JVal)) :
    1 ≤ (dumpMembersRest ms).length := by
  rcases membersRest_head ms with ⟨cs, h | h⟩ <;> simp [h]

theorem hasKey_append (k : String) : ∀ (l1 l2 : Record),
    hasKey k (l1 ++ l2) = (hasKey k l1 || hasKey k l2) := by
  intro l1
  induction l1 with
  | nil => simp [hasKey]
  | cons p t IH =>
    intro l2
    rcases p with ⟨k2, v2⟩
    simp [hasKey, IH, Bool.or_assoc]

theorem insertKV_fresh : ∀ (acc : Record) (k : String) (v : JVal),
    hasKey k acc = false → insertKV acc k v = acc ++ [(k, v)] := by
  intro acc
  induction acc with
  | nil =>
    intro k v _
    rfl
  | cons p t IH =>
    intro k v h
    rcases p with ⟨k2, v2⟩
    simp [hasKey] at h
    have hne : ¬(k2 = k) := fun he => h.1 he.symm
    simp [insertKV, hne, IH k v h.2]

theorem nodupKeys_shift : ∀ (acc : Record) (k : String) (v : JVal) (ms : Record),
    nodupKeys (acc ++ (k, v) :: ms) = true →
    hasKey k acc = false ∧ nodupKeys ((acc ++ [(k, v)]) ++ ms) = true := by
  intro acc
  induction acc with
  | nil =>
    intro k v ms h
    exact ⟨rfl, by simpa [nodupKeys] using h⟩
  | cons p t IH =>
    intro k v ms h
    rcases p with ⟨k2, v2⟩
    rw [List.cons_append, nodupKeys, Bool.and_eq_true, Bool.not_eq_true'] at h
    obtain ⟨hk2, hrest⟩ := h
    obtain ⟨hfresh, hnd⟩ := IH k v ms hrest
    rw [hasKey_append] at hk2
    simp only [hasKey, Bool.or_eq_false_iff, decide_eq_false_iff_not] at hk2
    constructor
    · simp only [hasKey, Bool.or_eq_false_iff, decide_eq_false_iff_not]
      exact ⟨fun he => hk2.2.1 he.symm, hfresh⟩
    · rw [List.cons_append, List.cons_append, nodupKeys, Bool.and_eq_true, Bool.not_eq_true']
      refine ⟨?_, hnd⟩
      rw [hasKey_append, hasKey_append]
      simp only [hasKey, Bool.or_eq_false_iff, decide_eq_false_iff_not]
      exact ⟨⟨hk2.1, hk2.2.1, trivial⟩, hk2.2.2⟩


theorem numOk_of_head : ∀ (v : JVal) (rest : List Char),
    (∀ c, rest.head? = some c → c.isDigit = false) → numOk v rest := by
  intro v rest h
  cases v <;> simp [numOk]
  exact h

theorem mk_data (s : String) : String.mk s.data = s := rfl

theorem skipWs_dump (v : JVal) (X : List Char) :
    skipWs (dumpVal v ++ X) = dumpVal v ++ X := by
  obtain ⟨c, cs, hv, hws, _⟩ := dump_head v
  rw [hv, List.cons_append]
  exact skipWs_cons_false hws _

theorem skipWs_elemsRest (l : List JVal) (X : List Char) :
    skipWs (dumpElemsRest l ++ X) = dumpElemsRest l ++ X := by
  rcases elemsRest_head l with ⟨cs, h | h⟩ <;> rw [h, List.cons_append] <;>
    exact skipWs_cons_false (by decide) _

theorem skipWs_membersRest (ms : List (String × JVal)) (X : List Char) :
    skipWs (dumpMembersRest ms ++ X) = dumpMembersRest ms ++ X := by
  rcases membersRest_head ms with ⟨cs, h | h⟩ <;> rw [h, List.cons_append] <;>
    exact skipWs_cons_false (by decide) _

theorem elemsRest_not_digit (l : List JVal) (X : List Char) :
    ∀ c, (dumpElemsRest l ++ X).head? = some c → c.isDigit = false := by
  intro c hc
  rcases elemsRest_head l with ⟨cs, h | h⟩ <;> rw [h] at hc <;> simp at hc <;> subst hc <;> decide

theorem membersRest_not_digit (ms : List (String × JVal)) (X : List Char) :
    ∀ c, (dumpMembersRest ms ++ X).head? = some c → c.isDigit = false := by
  intro c hc
  rcases membersRest_head ms with ⟨cs, h | h⟩ <;> rw [h] at hc <;> simp at hc <;> subst hc <;> decide

/-- Print-parse round trip: the scanner, given enough fuel, reads back
exactly the value the serializer wrote, leaving the trailing text
untouched.  Proved for values, array-element tails and object-member
tails simultaneously by strong induction on size. -/
theorem pp_all : ∀ N : Nat,
    (∀ v : JVal, sizeOf v ≤ N → wfB v = true → ∀ (fuel : Nat) (rest : List Char),
        needV v ≤ fuel → numOk v rest →
        parseVal fuel (dumpVal v ++ rest) = some (v, rest)) ∧
    (∀ l : List JVal, sizeOf l ≤ N → wfArr l = true → ∀ (fuel : Nat) (rest : List Char),
        needE l ≤ fuel →
        parseElems fuel (dumpElemsRest l ++ rest) = some (l, rest)) ∧
    (∀ ms : List (String × JVal), sizeOf ms ≤ N → wfMems ms = true →
        ∀ acc : Record, nodupKeys (acc ++ ms) = true → ∀ (fuel : Nat) (rest : List Char),
        needM ms ≤ fuel →
        parseMembers fuel (dumpMembersRest ms ++ rest) acc = some (.obj (acc ++ ms), rest)) := by
  intro N
  induction N using Nat.strong_induction_on with
  | _ N IH =>
    have IHv : ∀ v : JVal, sizeOf v < N → wfB v = true → ∀ (fuel : Nat) (rest : List Char),
        needV v ≤ fuel → numOk v rest →
        parseVal fuel (dumpVal v ++ rest) = some (v, rest) :=
      fun v hv => (IH (sizeOf v) hv).1 v le_rfl
    have IHe : ∀ l : List JVal, sizeOf l < N → wfArr l = true → ∀ (fuel : Nat) (rest : List Char),
        needE l ≤ fuel → parseElems fuel (dumpElemsRest l ++ rest) = some (l, rest) :=
      fun l hl => (IH (sizeOf l) hl).2.1 l le_rfl
    have IHm : ∀ ms : List (String × JVal), sizeOf ms < N → wfMems ms = true →
        ∀ acc : Record, nodupKeys (acc ++ ms) = true → ∀ (fuel : Nat) (rest : List Char),
        needM ms ≤ fuel →
        parseMembers fuel (dumpMembersRest ms ++ rest) acc = some (.obj (acc ++ ms), rest) :=
      fun ms hm => (IH (sizeOf ms) hm).2.2 ms le_rfl
    refine ⟨?_, ?_, ?_⟩
    · intro v hsz hwf fuel rest hfuel hnum
      cases v with
      | null =>
        obtain ⟨f, rfl⟩ : ∃ f, fuel = f + 1 := ⟨fuel - 1, by simp [needV] at hfuel; omega⟩
        rw [show dumpVal JVal.null = ['n', 'u', 'l', 'l'] from by simp [dumpVal]]
        simp only [List.cons_append, List.nil_append]
        rw [pv_succ]
        simp [expectNull]
      | bool b =>
        obtain ⟨f, rfl⟩ : ∃ f, fuel = f + 1 := ⟨fuel - 1, by simp [needV] at hfuel; omega⟩
        cases b with
        | true =>
          rw [show dumpVal (JVal.bool true) = ['t', 'r', 'u', 'e'] from by simp [dumpVal]]
          simp only [List.cons_append, List.nil_append]
          rw [pv_succ]
          simp [expectTrue]
        | false =>
          rw [show dumpVal (JVal.bool false) = ['f', 'a', 'l', 's', 'e'] from by simp [dumpVal]]
          simp only [List.cons_append, List.nil_append]
          rw [pv_succ]
          simp [expectFalse]
      | num i =>
        obtain ⟨f, rfl⟩ : ∃ f, fuel = f + 1 := ⟨fuel - 1, by simp [needV] at hfuel; omega⟩
        have hrest : ∀ c, rest.head? = some c → c.isDigit = false := by
          simpa [numOk] using hnum
        rw [show dumpVal (JVal.num i) = intToChars i from by simp [dumpVal]]
        by_cases hi : i < 0
        · rw [show intToChars i = '-' :: natToChars i.natAbs from by simp [intToChars, hi]]
          simp only [List.cons_append]
          rw [pv_succ]
          have hlex : lexNum ('-' :: (natToChars i.natAbs ++ rest)) = some (i, rest) := by
            have h2 : '-' :: (natToChars i.natAbs ++ rest) = intToChars i ++ rest := by
              simp [intToChars, hi]
            rw [h2]
            exact lexNum_print i rest hrest
          simp [hlex]
        · obtain ⟨d, cs, heq, hd, _, _⟩ := natToChars_shape i.toNat
          obtain ⟨hq, hb, hk, hn, ht, hf, _, _⟩ := digitChar_not_special d hd
          rw [show intToChars i = natToChars i.toNat from by simp [intToChars, hi], heq]
          simp only [List.cons_append]
          rw [pv_succ]
          have hlex : lexNum (digitChar d :: (cs ++ rest)) = some (i, rest) := by
            have h2 : digitChar d :: (cs ++ rest) = intToChars i ++ rest := by
              simp [intToChars, hi, heq]
            rw [h2]
            exact lexNum_print i rest hrest
          simp [hq, hb, hk, hn, ht, hf, hlex]
      | str s =>
        obtain ⟨f, rfl⟩ : ∃ f, fuel = f + 1 := ⟨fuel - 1, by simp [needV] at hfuel; omega⟩
        rw [show dumpVal (JVal.str s) = '"' :: (escChars s.data ++ ['"']) from by simp [dumpVal]]
        simp only [List.cons_append, List.append_assoc, List.nil_append]
        rw [pv_succ, if_pos rfl,
          lexStringAux_esc s.data [] rest _ (esc_len_lt s.data ('"' :: rest))]
        simp [mk_data]
      | arr l =>
        cases l with
        | nil =>
          obtain ⟨f, rfl⟩ : ∃ f, fuel = f + 1 + 1 :=
            ⟨fuel - 2, by simp [needV] at hfuel; omega⟩
          rw [show dumpVal (JVal.arr []) = ['[', ']'] from by simp [dumpVal]]
          simp only [List.cons_append, List.nil_append]
          rw [pv_succ]
          have hsw : skipWs (']' :: rest) = ']' :: rest := skipWs_cons_false (by decide) _
          simp [hsw, pab_cons]
        | cons v vs =>
          obtain ⟨f, rfl⟩ : ∃ f, fuel = f + 1 + 1 :=
            ⟨fuel - 2, by simp [needV] at hfuel; omega⟩
          have hsz' := hsz
          simp only [JVal.arr.sizeOf_spec, List.cons.sizeOf_spec] at hsz'
          have hwf' : wfB v = true ∧ wfArr vs = true := by
            simpa [wfB, wfArr] using hwf
          have hfuel' : needV v ≤ f ∧ needE vs ≤ f := by
            rw [show needV (JVal.arr (v :: vs)) = 2 + max (needV v) (needE vs)
              from by simp [needV]] at hfuel
            have h1 := Nat.le_max_left (needV v) (needE vs)
            have h2 := Nat.le_max_right (needV v) (needE vs)
            omega
          rw [show dumpVal (JVal.arr (v :: vs)) = '[' :: (dumpVal v ++ dumpElemsRest vs)
            from by simp [dumpVal]]
          simp only [List.cons_append, List.append_assoc]
          rw [pv_succ]
          have hsw := skipWs_dump v (dumpElemsRest vs ++ rest)
          obtain ⟨c0, cs0, hv0, hws0, hrb0⟩ := dump_head v
          have hval := IHv v (by omega) hwf'.1 f (dumpElemsRest vs ++ rest) hfuel'.1
            (numOk_of_head v _ (elemsRest_not_digit vs rest))
          have helems := IHe vs (by omega) hwf'.2 f rest hfuel'.2
          simp only [hsw]
          rw [hv0, List.cons_append, pab_cons, if_neg hrb0, ← List.cons_append, ← hv0, hval]
          simp [skipWs_elemsRest vs rest, helems]
      | obj ms =>
        rcases ms with _ | ⟨⟨k, v⟩, ms⟩
        · obtain ⟨f, rfl⟩ : ∃ f, fuel = f + 1 + 1 :=
            ⟨fuel - 2, by simp [needV] at hfuel; omega⟩
          rw [show dumpVal (JVal.obj []) = ['{', '}'] from by simp [dumpVal]]
          simp only [List.cons_append, List.nil_append]
          rw [pv_succ]
          have hsw : skipWs ('}' :: rest) = '}' :: rest := skipWs_cons_false (by decide) _
          simp [hsw, pob_rbrace]
        · obtain ⟨f, rfl⟩ : ∃ f, fuel = f + 1 + 1 + 1 :=
            ⟨fuel - 3, by simp [needV] at hfuel; omega⟩
          have hsz' := hsz
          simp only [JVal.obj.sizeOf_spec, List.cons.sizeOf_spec, Prod.mk.sizeOf_spec] at hsz'
          have hwf' : nodupKeys ((k, v) :: ms) = true ∧ wfB v = true ∧ wfMems ms = true := by
            simpa [wfB, wfMems] using hwf
          have hfuel' : needV v ≤ f ∧ needM ms ≤ f := by
            rw [show needV (JVal.obj ((k, v) :: ms)) = 3 + max (needV v) (needM ms)
              from by simp [needV]] at hfuel
            have h1 := Nat.le_max_left (needV v) (needM ms)
            have h2 := Nat.le_max_right (needV v) (needM ms)
            omega
          rw [show dumpVal (JVal.obj ((k, v) :: ms)) =
              '{' :: ('"' :: (escChars k.data ++ ['"', ':'] ++ dumpVal v ++ dumpMembersRest ms))
            from by simp [dumpVal]]
          simp only [List.cons_append, List.append_assoc, List.nil_append]
          rw [pv_succ]
          have hswq : skipWs ('"' :: (escChars k.data ++
              ('"' :: (':' :: (dumpVal v ++ (dumpMembersRest ms ++ rest)))))) =
              '"' :: (escChars k.data ++
              ('"' :: (':' :: (dumpVal v ++ (dumpMembersRest ms ++ rest))))) :=
            skipWs_cons_false (by decide) _
          have hval := IHv v (by omega) hwf'.2.1 f (dumpMembersRest ms ++ rest) hfuel'.1
            (numOk_of_head v _ (membersRest_not_digit ms rest))
          have hmems := IHm ms (by omega) hwf'.2.2 [(k, v)] (by simpa using hwf'.1) f rest hfuel'.2
          have hswc : skipWs (':' :: (dumpVal v ++ (dumpMembersRest ms ++ rest))) =
              ':' :: (dumpVal v ++ (dumpMembersRest ms ++ rest)) :=
            skipWs_cons_false (by decide) _
          simp only [hswq]
          rw [pob_quote, lexStringAux_esc k.data []
            (':' :: (dumpVal v ++ (dumpMembersRest ms ++ rest))) _
            (esc_len_lt k.data ('"' :: (':' :: (dumpVal v ++ (dumpMembersRest ms ++ rest)))))]
          simp only [List.reverse_nil, List.nil_append, mk_data]
          simp [hswc, pmv_colon, skipWs_dump v (dumpMembersRest ms ++ rest), hval,
            skipWs_membersRest ms rest]
          rw [show insertKV [] k v = [(k, v)] from rfl]
          simpa using hmems
    · intro l hsz hwf fuel rest hfuel
      obtain ⟨f, rfl⟩ : ∃ f, fuel = f + 1 := ⟨fuel - 1, by have := needE_pos l; omega⟩
      cases l with
      | nil =>
        rw [show dumpElemsRest ([] : List JVal) = [']'] from by simp [dumpElemsRest]]
        simp only [List.cons_append, List.nil_append]
        rw [pe_rbrack]
      | cons v vs =>
        have hsz' := hsz
        simp only [List.cons.sizeOf_spec] at hsz'
        have hwf' : wfB v = true ∧ wfArr vs = true := by
          simpa [wfArr] using hwf
        have hfuel' : needV v ≤ f ∧ needE vs ≤ f := by
          rw [show needE (v :: vs) = 1 + max (needV v) (needE vs) from by simp [needE]] at hfuel
          have h1 := Nat.le_max_left (needV v) (needE vs)
          have h2 := Nat.le_max_right (needV v) (needE vs)
          omega
        rw [show dumpElemsRest (v :: vs) = ',' :: (dumpVal v ++ dumpElemsRest vs)
          from by simp [dumpElemsRest]]
        simp only [List.cons_append, List.append_assoc]
        rw [pe_comma]
        have hval := IHv v (by omega) hwf'.1 f (dumpElemsRest vs ++ rest) hfuel'.1
          (numOk_of_head v _ (elemsRest_not_digit vs rest))
        have helems := IHe vs (by omega) hwf'.2 f rest hfuel'.2
        simp [skipWs_dump v (dumpElemsRest vs ++ rest), hval,
          skipWs_elemsRest vs rest, helems]
    · intro ms hsz hwf acc hacc fuel rest hfuel
      rcases ms with _ | ⟨⟨k, v⟩, ms⟩
      · obtain ⟨f, rfl⟩ : ∃ f, fuel = f + 1 := ⟨fuel - 1, by simp [needM] at hfuel; omega⟩
        rw [show dumpMembersRest ([] : List (String × JVal)) = ['}'] from by simp [dumpMembersRest]]
        simp only [List.cons_append, List.nil_append]
        rw [pm_rbrace]
        simp
      · obtain ⟨f, rfl⟩ : ∃ f, fuel = f + 1 + 1 + 1 :=
          ⟨fuel - 3, by simp [needM] at hfuel; omega⟩
        have hsz' := hsz
        simp only [List.cons.sizeOf_spec, Prod.mk.sizeOf_spec] at hsz'
        have hwf' : wfB v = true ∧ wfMems ms = true := by
          simpa [wfMems] using hwf
        have hfuel' : needV v ≤ f ∧ needM ms ≤ f := by
          rw [show needM ((k, v) :: ms) = 3 + max (needV v) (needM ms)
            from by simp [needM]] at hfuel
          have h1 := Nat.le_max_left (needV v) (needM ms)
          have h2 := Nat.le_max_right (needV v) (needM ms)
          omega
        obtain ⟨hfresh, hnd⟩ := nodupKeys_shift acc k v ms hacc
        rw [show dumpMembersRest ((k, v) :: ms) =
            ',' :: ('"' :: (escChars k.data ++ ['"', ':'] ++ dumpVal v ++ dumpMembersRest ms))
          from by simp [dumpMembersRest]]
        simp only [List.cons_append, List.append_assoc, List.nil_append]
        rw [pm_comma]
        have hswq : skipWs ('"' :: (escChars k.data ++
            ('"' :: (':' :: (dumpVal v ++ (dumpMembersRest ms ++ rest)))))) =
            '"' :: (escChars k.data ++
            ('"' :: (':' :: (dumpVal v ++ (dumpMembersRest ms ++ rest))))) :=
          skipWs_cons_false (by decide) _
        have hswc : skipWs (':' :: (dumpVal v ++ (dumpMembersRest ms ++ rest))) =
            ':' :: (dumpVal v ++ (dumpMembersRest ms ++ rest)) :=
          skipWs_cons_false (by decide) _
        have hval := IHv v (by omega) hwf'.1 f (dumpMembersRest ms ++ rest) hfuel'.1
          (numOk_of_head v _ (membersRest_not_digit ms rest))
        have hmems := IHm ms (by omega) hwf'.2 (acc ++ [(k, v)]) hnd f rest hfuel'.2
        simp only [hswq]
        rw [pmk_quote, lexStringAux_esc k.data []
          (':' :: (dumpVal v ++ (dumpMembersRest ms ++ rest))) _
          (esc_len_lt k.data ('"' :: (':' :: (dumpVal v ++ (dumpMembersRest ms ++ rest)))))]
        simp only [List.reverse_nil, List.nil_append, mk_data]
        simp [hswc, pmv_colon, skipWs_dump v (dumpMembersRest ms ++ rest), hval,
          skipWs_membersRest ms rest]
        rw [insertKV_fresh acc k v hfresh]
        simpa using hmems

/-- The fuel bound is below the serialized length: parsing a dump with
length-derived fuel always has enough fuel. -/
theorem need_le_len : ∀ N : Nat,
    (∀ v : JVal, sizeOf v ≤ N → needV v ≤ (dumpVal v).length) ∧
    (∀ l : List JVal, sizeOf l ≤ N → needE l ≤ (dumpElemsRest l).length) ∧
    (∀ ms : List (String × JVal), sizeOf ms ≤ N → needM ms ≤ (dumpMembersRest ms).length) := by
  intro N
  induction N using Nat.strong_induction_on with
  | _ N IH =>
    have IHv : ∀ v : JVal, sizeOf v < N → needV v ≤ (dumpVal v).length :=
      fun v hv => (IH (sizeOf v) hv).1 v le_rfl
    have IHe : ∀ l : List JVal, sizeOf l < N → needE l ≤ (dumpElemsRest l).length :=
      fun l hl => (IH (sizeOf l) hl).2.1 l le_rfl
    have IHm : ∀ ms : List (String × JVal), sizeOf ms < N → needM ms ≤ (dumpMembersRest ms).length :=
      fun ms hm => (IH (sizeOf ms) hm).2.2 ms le_rfl
    refine ⟨?_, ?_, ?_⟩
    · intro v hsz
      cases v with
      | null => simp [dumpVal, needV]
      | bool b => cases b <;> simp [dumpVal, needV]
      | num i =>
        obtain ⟨c, cs, h, _, _⟩ := dump_head (JVal.num i)
        rw [h]
        simp [needV]
      | str s => simp [dumpVal, needV]
      | arr l =>
        cases l with
        | nil => simp [dumpVal, needV]
        | cons v vs =>
          have hsz' := hsz
          simp only [JVal.arr.sizeOf_spec, List.cons.sizeOf_spec] at hsz'
          have h1 := IHv v (by omega)
          have h2 := IHe vs (by omega)
          have h3 := dump_len_pos v
          have h4 := elemsRest_len_pos vs
          have hm : max (needV v) (needE vs) ≤
              (dumpVal v).length + (dumpElemsRest vs).length - 1 :=
            Nat.max_le.mpr ⟨by omega, by omega⟩
          simp [dumpVal, needV, List.length_append]
          omega
      | obj ms =>
        rcases ms with _ | ⟨⟨k, v⟩, ms⟩
        · simp [dumpVal, needV]
        · have hsz' := hsz
          simp only [JVal.obj.sizeOf_spec, List.cons.sizeOf_spec, Prod.mk.sizeOf_spec] at hsz'
          have h1 := IHv v (by omega)
          have h2 := IHm ms (by omega)
          have hm : max (needV v) (needM ms) ≤
              (dumpVal v).length + (dumpMembersRest ms).length :=
            Nat.max_le.mpr ⟨by omega, by omega⟩
          simp [dumpVal, needV, List.length_append]
          omega
    · intro l hsz
      cases l with
      | nil => simp [dumpElemsRest, needE]
      | cons v vs =>
        have hsz' := hsz
        simp only [List.cons.sizeOf_spec] at hsz'
        have h1 := IHv v (by omega)
        have h2 := IHe vs (by omega)
        have hm : max (needV v) (needE vs) ≤
            (dumpVal v).length + (dumpElemsRest vs).length :=
          Nat.max_le.mpr ⟨by omega, by omega⟩
        simp [dumpElemsRest, needE, List.length_append]
        omega
    · intro ms hsz
      rcases ms with _ | ⟨⟨k, v⟩, ms⟩
      · simp [dumpMembersRest, needM]
      · have hsz' := hsz
        simp only [List.cons.sizeOf_spec, Prod.mk.sizeOf_spec] at hsz'
        have h1 := IHv v (by omega)
        have h2 := IHm ms (by omega)
        have hm : max (needV v) (needM ms) ≤
            (dumpVal v).length + (dumpMembersRest ms).length :=
          Nat.max_le.mpr ⟨by omega, by omega⟩
        simp [dumpMembersRest, needM, List.length_append]
        omega

theorem needV_le_dump_len (v : JVal) : needV v ≤ (dumpVal v).length :=
  (need_le_len (sizeOf v)).1 v le_rfl

theorem hexLow_ne_nl : ∀ m, m < 16 → ¬(hexDigitChar m = '\n') := by decide

theorem digit_ne_nl : ∀ c : Char, c.isDigit = true → ¬(c = '\n') := by
  intro c h he
  rw [he] at h
  exact absurd h (by decide)

theorem escChar_no_nl : ∀ c : Char, '\n' ∉ escChar c := by
  intro c
  unfold escChar
  split_ifs with h1 h2 h3 h4 h5 h6 h7 h8
  · simp
  · simp
  · simp
  · simp
  · simp
  · simp
  · simp
  · have ha := hexLow_ne_nl (c.toNat / 16) (by omega)
    have hb := hexLow_ne_nl (c.toNat % 16) (by omega)
    simp
    exact ⟨fun he => ha he.symm, fun he => hb he.symm⟩
  · simp
    intro he
    rw [← he] at h8
    exact h8 (by decide)

theorem escChars_no_nl : ∀ l : List Char, '\n' ∉ escChars l := by
  intro l
  induction l with
  | nil => simp [escChars]
  | cons c t IH =>
    simp only [escChars, List.mem_append]
    rintro (h | h)
    · exact escChar_no_nl c h
    · exact IH h

theorem natToChars_no_nl : ∀ n : Nat, '\n' ∉ natToChars n := by
  intro n h
  exact digit_ne_nl '\n' (natToChars_all_digits n '\n' h) rfl

theorem intToChars_no_nl : ∀ i : Int, '\n' ∉ intToChars i := by
  intro i
  unfold intToChars
  split_ifs with hi
  · simp only [List.mem_cons]
    rintro (h | h)
    · exact absurd h (by decide)
    · exact natToChars_no_nl _ h
  · exact natToChars_no_nl _

/-- No serialization contains a raw newline: newlines inside strings are
escaped, so compact dumps are single physical lines. -/
theorem dump_no_nl : ∀ N : Nat,
    (∀ v : JVal, sizeOf v ≤ N → '\n' ∉ dumpVal v) ∧
    (∀ l : List JVal, sizeOf l ≤ N → '\n' ∉ dumpElemsRest l) ∧
    (∀ ms : List (String × JVal), sizeOf ms ≤ N → '\n' ∉ dumpMembersRest ms) := by
  intro N
  induction N using Nat.strong_induction_on with
  | _ N IH =>
    have IHv : ∀ v : JVal, sizeOf v < N → '\n' ∉ dumpVal v :=
      fun v hv => (IH (sizeOf v) hv).1 v le_rfl
    have IHe : ∀ l : List JVal, sizeOf l < N → '\n' ∉ dumpElemsRest l :=
      fun l hl => (IH (sizeOf l) hl).2.1 l le_rfl
    have IHm : ∀ ms : List (String × JVal), sizeOf ms < N → '\n' ∉ dumpMembersRest ms :=
      fun ms hm => (IH (sizeOf ms) hm).2.2 ms le_rfl
    refine ⟨?_, ?_, ?_⟩
    · intro v hsz
      cases v with
      | null => simp [dumpVal]
      | bool b => cases b <;> simp [dumpVal]
      | num i =>
        rw [show dumpVal (JVal.num i) = intToChars i from by simp [dumpVal]]
        exact intToChars_no_nl i
      | str s =>
        rw [show dumpVal (JVal.str s) = '"' :: (escChars s.data ++ ['"']) from by simp [dumpVal]]
        simp only [List.mem_cons, List.mem_append]
        rintro (h | h | h)
        · exact absurd h (by decide)
        · exact escChars_no_nl _ h
        · simp at h
      | arr l =>
        cases l with
        | nil => simp [dumpVal]
        | cons v vs =>
          have hsz' := hsz
          simp only [JVal.arr.sizeOf_spec, List.cons.sizeOf_spec] at hsz'
          rw [show dumpVal (JVal.arr (v :: vs)) = '[' :: (dumpVal v ++ dumpElemsRest vs)
            from by simp [dumpVal]]
          simp only [List.mem_cons, List.mem_append]
          rintro (h | h | h)
          · exact absurd h (by decide)
          · exact IHv v (by omega) h
          · exact IHe vs (by omega) h
      | obj ms =>
        rcases ms with _ | ⟨⟨k, v⟩, ms⟩
        · simp [dumpVal]
        · have hsz' := hsz
          simp only [JVal.obj.sizeOf_spec, List.cons.sizeOf_spec, Prod.mk.sizeOf_spec] at hsz'
          have hv' := IHv v (by omega)
          have hm' := IHm ms (by omega)
          have hesc := escChars_no_nl k.data
          rw [show dumpVal (JVal.obj ((k, v) :: ms)) =
              '{' :: ('"' :: (escChars k.data ++ ['"', ':'] ++ dumpVal v ++ dumpMembersRest ms))
            from by simp [dumpVal]]
          simp [hv', hm', hesc]
    · intro l hsz
      cases l with
      | nil => simp [dumpElemsRest]
      | cons v vs =>
        have hsz' := hsz
        simp only [List.cons.sizeOf_spec] at hsz'
        rw [show dumpElemsRest (v :: vs) = ',' :: (dumpVal v ++ dumpElemsRest vs)
          from by simp [dumpElemsRest]]
        simp only [List.mem_cons, List.mem_append]
        rintro (h | h | h)
        · exact absurd h (by decide)
        · exact IHv v (by omega) h
        · exact IHe vs (by omega) h
    · intro ms hsz
      rcases ms with _ | ⟨⟨k, v⟩, ms⟩
      · simp [dumpMembersRest]
      · have hsz' := hsz
        simp only [List.cons.sizeOf_spec, Prod.mk.sizeOf_spec] at hsz'
        have hv' := IHv v (by omega)
        have hm' := IHm ms (by omega)
        have hesc := escChars_no_nl k.data
        rw [show dumpMembersRest ((k, v) :: ms) =
            ',' :: ('"' :: (escChars k.data ++ ['"', ':'] ++ dumpVal v ++ dumpMembersRest ms))
          from by simp [dumpMembersRest]]
        simp [hv', hm', hesc]

theorem dumpVal_no_nl (v : JVal) : '\n' ∉ dumpVal v :=
  (dump_no_nl (sizeOf v)).1 v le_rfl

theorem membersRest_last : ∀ ms : List (String × JVal),
    ∃ pre, dumpMembersRest ms = pre ++ ['}'] := by
  intro ms
  induction ms with
  | nil => exact ⟨[], by simp [dumpMembersRest]⟩
  | cons p t IH =>
    rcases p with ⟨k, v⟩
    obtain ⟨pre, h⟩ := IH
    refine ⟨',' :: ('"' :: (escChars k.data ++ ['"', ':'] ++ dumpVal v ++ pre)), ?_⟩
    rw [show dumpMembersRest ((k, v) :: t) =
        ',' :: ('"' :: (escChars k.data ++ ['"', ':'] ++ dumpVal v ++ dumpMembersRest t))
      from by simp [dumpMembersRest], h]
    simp

/-- An object's serialization is an opening brace, a middle part, and a
closing brace. -/
theorem dumpObj_shape : ∀ ms : List (String × JVal),
    ∃ mid, dumpVal (.obj ms) = '{' :: (mid ++ ['}']) := by
  intro ms
  rcases ms with _ | ⟨⟨k, v⟩, ms⟩
  · exact ⟨[], by simp [dumpVal]⟩
  · obtain ⟨pre, h⟩ := membersRest_last ms
    refine ⟨'"' :: (escChars k.data ++ ['"', ':'] ++ dumpVal v ++ pre), ?_⟩
    rw [show dumpVal (JVal.obj ((k, v) :: ms)) =
        '{' :: ('"' :: (escChars k.data ++ ['"', ':'] ++ dumpVal v ++ dumpMembersRest ms))
      from by simp [dumpVal], h]
    simp

/-- Stripping does not change an object's serialization. -/
theorem pyStripL_dumpObj (ms : List (String × JVal)) :
    pyStripL (dumpVal (.obj ms)) = dumpVal (.obj ms) := by
  obtain ⟨mid, h⟩ := dumpObj_shape ms
  rw [h]
  apply pyStripL_id
  · intro c hc
    simp at hc
    rw [← hc]
    decide
  · intro c hc
    rw [show ('{' :: (mid ++ ['}'])) = ('{' :: mid) ++ ['}'] from by simp] at hc
    rw [List.getLast?_concat] at hc
    injection hc with hc
    rw [← hc]
    decide

/-- `json.loads` undoes the compact serializer on a well-formed value. -/
theorem jsonLoadsL_dump (v : JVal) (hwf : wfB v = true) : jsonLoadsL (dumpVal v) = some v := by
  unfold jsonLoadsL
  have hssw : skipWs (dumpVal v) = dumpVal v := by
    obtain ⟨c, cs, h, hws, _⟩ := dump_head v
    rw [h]
    exact skipWs_cons_false hws _
  rw [hssw]
  have hpp := (pp_all (sizeOf v)).1 v le_rfl hwf ((dumpVal v).length + 1) []
    (by have := needV_le_dump_len v; omega)
    (numOk_of_head v [] (by intro c hc; simp at hc))
  rw [show dumpVal v ++ ([] : List Char) = dumpVal v from by simp] at hpp
  rw [hpp]
  rfl

/-- `json.loads` rejects a serialized value followed by any trailing
text that is not pure whitespace (the decoder's extra-data check). -/
theorem jsonLoadsL_dump_extra (v : JVal) (hwf : wfB v = true) (tail : List Char)
    (hnum : numOk v tail) (hne : ¬(skipWs tail = [])) :
    jsonLoadsL (dumpVal v ++ tail) = none := by
  unfold jsonLoadsL
  rw [skipWs_dump v tail]
  have hpp := (pp_all (sizeOf v)).1 v le_rfl hwf ((dumpVal v ++ tail).length + 1) tail
    (by have := needV_le_dump_len v; simp [List.length_append]; omega) hnum
  rw [hpp]
  simp [hne]

/-- A line holding exactly one serialized record parses back to that
record in the line-delimited pass. -/
theorem lineToRecord_dump (r : Record) (hwf : wfB (.obj r) = true) :
    lineToRecord (dumpVal (.obj r)) = some r := by
  have h1 : pyStripL (dumpVal (.obj r)) = dumpVal (.obj r) := pyStripL_dumpObj r
  have h2 : (dumpVal (.obj r)).isEmpty = false := by
    obtain ⟨mid, hsh⟩ := dumpObj_shape r
    rw [hsh]
    simp
  have h3 := jsonLoadsL_dump (.obj r) hwf
  simp [lineToRecord, h1, h2, h3]

theorem filterMap_all_some {α β : Type} (f : α → Option β) (g : α → β) :
    ∀ l : List α, (∀ x ∈ l, f x = some (g x)) → l.filterMap f = l.map g := by
  intro l
  induction l with
  | nil => intro _; rfl
  | cons a t IH =>
    intro h
    rw [List.map_cons, List.filterMap_cons, h a (by simp), IH (fun x hx => h x (by simp [hx]))]

theorem arr_foldl_eq : ∀ (items : List JVal) (acc : List Record),
    items.foldl (fun objects item =>
      match item with
      | JVal.obj d => objects ++ [d]
      | _ => objects) acc = acc ++ items.filterMap jvalToRecord := by
  intro items
  induction items with
  | nil => intro acc; simp
  | cons v t IH =>
    intro acc
    rw [List.foldl_cons, IH]
    cases v <;> simp [jvalToRecord]

theorem line_step_eq (acc : List Record) (line : List Char) :
    (let l := pyStripL line
     if l.isEmpty then acc
     else
       match jsonLoadsL l with
       | some (.obj d) => acc ++ [d]
       | _ => acc) = acc ++ (lineToRecord line).toList := by
  simp only [lineToRecord]
  by_cases h : (pyStripL line).isEmpty
  · simp [h]
  · simp only [h, if_false, Bool.false_eq_true]
    cases hj : jsonLoadsL (pyStripL line) with
    | none => simp
    | some v => cases v <;> simp

theorem lines_foldl_eq : ∀ (ls : List (List Char)) (acc : List Record),
    ls.foldl (fun objects line =>
      let l := pyStripL line
      if l.isEmpty then objects
      else
        match jsonLoadsL l with
        | some (.obj d) => objects ++ [d]
        | _ => objects) acc = acc ++ ls.filterMap lineToRecord := by
  intro ls
  induction ls with
  | nil => intro acc; simp
  | cons line t IH =>
    intro acc
    rw [List.foldl_cons]
    have hstep := line_step_eq acc line
    simp only at hstep
    rw [hstep, IH]
    cases hl : lineToRecord line <;> simp [List.filterMap_cons, hl]

/-- The strategy order of `parse_json_file`, as one characterization:
a whole-document mapping wins; a whole-document array returns its
mapping elements (even none); otherwise the line pass, and only when it
found nothing, the concatenated scan. -/
theorem parseCoreL_eq (content : List Char) :
    parseCoreL content =
      match jsonLoadsL content with
      | some (.obj d) => [d]
      | some (.arr items) => items.filterMap jvalToRecord
      | _ =>
        if strategy3L content = [] then strategy4L content else strategy3L content := by
  unfold parseCoreL
  cases hj : jsonLoadsL content with
  | none =>
    simp only
    rw [lines_foldl_eq]
    simp only [List.nil_append]
    rw [show (splitNLChars content).filterMap lineToRecord = strategy3L content from rfl]
    by_cases h : strategy3L content = []
    · simp [List.isEmpty_iff, h, strategy4L]
    · simp [List.isEmpty_iff, h]
  | some v =>
    cases v with
    | obj d => simp
    | arr items => simp [arr_foldl_eq]
    | null =>
      simp only
      rw [lines_foldl_eq]
      simp only [List.nil_append]
      rw [show (splitNLChars content).filterMap lineToRecord = strategy3L content from rfl]
      by_cases h : strategy3L content = []
      · simp [List.isEmpty_iff, h, strategy4L]
      · simp [List.isEmpty_iff, h]
    | bool b =>
      simp only
      rw [lines_foldl_eq]
      simp only [List.nil_append]
      rw [show (splitNLChars content).filterMap lineToRecord = strategy3L content from rfl]
      by_cases h : strategy3L content = []
      · simp [List.isEmpty_iff, h, strategy4L]
      · simp [List.isEmpty_iff, h]
    | num i =>
      simp only
      rw [lines_foldl_eq]
      simp only [List.nil_append]
      rw [show (splitNLChars content).filterMap lineToRecord = strategy3L content from rfl]
      by_cases h : strategy3L content = []
      · simp [List.isEmpty_iff, h, strategy4L]
      · simp [List.isEmpty_iff, h]
    | str s =>
      simp only
      rw [lines_foldl_eq]
      simp only [List.nil_append]
      rw [show (splitNLChars content).filterMap lineToRecord = strategy3L content from rfl]
      by_cases h : strategy3L content = []
      · simp [List.isEmpty_iff, h, strategy4L]
      · simp [List.isEmpty_iff, h]

theorem joinNL_dumps_last : ∀ rs : List Record, rs ≠ [] →
    ∃ pre, joinNL (rs.map (fun r => dumpVal (.obj r))) = pre ++ ['}'] := by
  intro rs
  induction rs with
  | nil =>
    intro h
    exact absurd rfl h
  | cons r t IH =>
    intro _
    cases t with
    | nil =>
      obtain ⟨mid, h⟩ := dumpObj_shape r
      exact ⟨'{' :: mid, by simp [joinNL, h]⟩
    | cons r2 t2 =>
      obtain ⟨pre, h⟩ := IH (List.cons_ne_nil _ _)
      refine ⟨dumpVal (.obj r) ++ '\n' :: pre, ?_⟩
      rw [show joinNL ((r :: r2 :: t2).map (fun r => dumpVal (.obj r))) =
          dumpVal (.obj r) ++ '\n' :: joinNL ((r2 :: t2).map (fun r => dumpVal (.obj r)))
        from by simp [joinNL], h]
      simp

theorem joinNL_dumps_head : ∀ (r : Record) (t : List Record), ∃ cs,
    joinNL ((r :: t).map (fun x => dumpVal (.obj x))) = '{' :: cs := by
  intro r t
  obtain ⟨mid, h⟩ := dumpObj_shape r
  cases t with
  | nil => exact ⟨mid ++ ['}'], by simp [joinNL, h]⟩
  | cons r2 t2 =>
    refine ⟨(mid ++ ['}']) ++ '\n' :: joinNL ((r2 :: t2).map (fun x => dumpVal (.obj x))), ?_⟩
    rw [show joinNL ((r :: r2 :: t2).map (fun x => dumpVal (.obj x))) =
        dumpVal (.obj r) ++ '\n' :: joinNL ((r2 :: t2).map (fun x => dumpVal (.obj x)))
      from by simp [joinNL], h]
    simp

/-- Parsing the newline-joined compact serializations of one or more
well-formed records recovers the records in order. -/
theorem parseCore_joinNL : ∀ rs : List Record, rs ≠ [] →
    (∀ r ∈ rs, wfB (.obj r) = true) →
    parseCoreL (joinNL (rs.map (fun r => dumpVal (.obj r)))) = rs := by
  intro rs hne hwf
  rw [parseCoreL_eq]
  rcases rs with _ | ⟨r1, rs'⟩
  · exact absurd rfl hne
  rcases rs' with _ | ⟨r2, rs''⟩
  · rw [show joinNL ([r1].map (fun r => dumpVal (.obj r))) = dumpVal (.obj r1)
      from by simp [joinNL]]
    rw [jsonLoadsL_dump (.obj r1) (hwf r1 (by simp))]
  · have hsplit : joinNL ((r1 :: r2 :: rs'').map (fun r => dumpVal (.obj r))) =
        dumpVal (.obj r1) ++ '\n' :: joinNL ((r2 :: rs'').map (fun r => dumpVal (.obj r))) := by
      simp [joinNL]
    have hloads : jsonLoadsL (joinNL ((r1 :: r2 :: rs'').map (fun r => dumpVal (.obj r)))) = none := by
      rw [hsplit]
      apply jsonLoadsL_dump_extra (.obj r1) (hwf r1 (by simp)) _ (by simp [numOk])
      rw [skipWs_cons_true (by decide)]
      obtain ⟨cs, hh⟩ := joinNL_dumps_head r2 rs''
      rw [hh, skipWs_cons_false (by decide)]
      simp
    rw [hloads]
    have hlines : splitNLChars (joinNL ((r1 :: r2 :: rs'').map (fun r => dumpVal (.obj r)))) =
        (r1 :: r2 :: rs'').map (fun r => dumpVal (.obj r)) := by
      apply splitNL_joinNL
      · simp
      · intro d hd
        rw [List.mem_map] at hd
        obtain ⟨r, _, rfl⟩ := hd
        exact dumpVal_no_nl _
    have hs3 : strategy3L (joinNL ((r1 :: r2 :: rs'').map (fun r => dumpVal (.obj r)))) =
        r1 :: r2 :: rs'' := by
      unfold strategy3L
      rw [hlines, List.filterMap_map]
      have := filterMap_all_some (fun r : Record => lineToRecord (dumpVal (.obj r))) id
        (r1 :: r2 :: rs'') (fun r hr => lineToRecord_dump r (hwf r hr))
      simpa using this
    simp only [List.map_cons] at hs3 ⊢
    simp [hs3]

/-- The full parser on the newline-joined serializations (the text the
writer would produce, minus the trailing newline). -/
theorem parse_json_file_joinNL : ∀ rs : List Record, rs ≠ [] →
    (∀ r ∈ rs, wfB (.obj r) = true) →
    parse_json_file (String.mk (joinNL (rs.map (fun r => dumpVal (.obj r))))) = rs := by
  intro rs hne hwf
  show parseCoreL (pyStripL (joinNL (rs.map (fun r => dumpVal (.obj r))))) = rs
  have hstrip : pyStripL (joinNL (rs.map (fun r => dumpVal (.obj r)))) =
      joinNL (rs.map (fun r => dumpVal (.obj r))) := by
    rcases rs with _ | ⟨r1, rs'⟩
    · exact absurd rfl hne
    apply pyStripL_id
    · intro c hc
      obtain ⟨cs, hh⟩ := joinNL_dumps_head r1 rs'
      rw [hh] at hc
      simp at hc
      rw [← hc]
      decide
    · intro c hc
      obtain ⟨pre, hl⟩ := joinNL_dumps_last (r1 :: rs') (List.cons_ne_nil _ _)
      rw [hl, List.getLast?_concat] at hc
      injection hc with hc
      rw [← hc]
      decide
  rw [hstrip]
  exact parseCore_joinNL rs hne hwf

/-!
### Brace balance of compact serializations
-/

theorem bal_append : ∀ l1 l2 : List Char, bal (l1 ++ l2) = bal l1 + bal l2 := by
  intro l1 l2
  induction l1 with
  | nil => simp [bal]
  | cons c t IH => simp [bal, IH]; ring

theorem bal_of_zeros : ∀ cs : List Char, (∀ c ∈ cs, braceDelta c = 0) → bal cs = 0 := by
  intro cs
  induction cs with
  | nil => intro _; rfl
  | cons c t IH =>
    intro h
    have h1 := h c (by simp)
    have h2 := IH (fun x hx => h x (by simp [hx]))
    simp [bal, h1, h2]

theorem zeros_split (cs p q : List Char) (hpq : cs = p ++ q)
    (hz : ∀ c ∈ cs, braceDelta c = 0) : bal p = 0 := by
  apply bal_of_zeros
  intro c hc
  exact hz c (by rw [hpq]; exact List.mem_append.mpr (Or.inl hc))

theorem braceDelta_digit (c : Char) (h : c.isDigit = true) : braceDelta c = 0 := by
  have h1 : ¬(c = '{') := fun he => absurd h (by rw [he]; decide)
  have h2 : ¬(c = '}') := fun he => absurd h (by rw [he]; decide)
  simp [braceDelta, h1, h2]

theorem braceDelta_hex (m : Nat) (hm : m < 16) : braceDelta (hexDigitChar m) = 0 := by
  revert m
  decide

theorem escChar_nb (c : Char) (h1 : ¬(c = '{')) (h2 : ¬(c = '}')) :
    ∀ x ∈ escChar c, braceDelta x = 0 := by
  intro x hx
  unfold escChar at hx
  split at hx
  · next h => simp at hx; rcases hx with rfl | rfl <;> decide
  · split at hx
    · next h => simp at hx; rcases hx with rfl | rfl <;> decide
    · split at hx
      · next h => simp at hx; rcases hx with rfl | rfl <;> decide
      · split at hx
        · next h => simp at hx; rcases hx with rfl | rfl <;> decide
        · split at hx
          · next h => simp at hx; rcases hx with rfl | rfl <;> decide
          · split at hx
            · next h => simp at hx; rcases hx with rfl | rfl <;> decide
            · split at hx
              · next h => simp at hx; rcases hx with rfl | rfl <;> decide
              · split at hx
                · next h =>
                  simp at hx
                  rcases hx with rfl | rfl | rfl | rfl | rfl | rfl <;>
                    first
                    | decide
                    | exact braceDelta_hex _ (by omega)
                · simp at hx
                  subst hx
                  simp [braceDelta, h1, h2]

theorem escChars_nb : ∀ l : List Char, (∀ c ∈ l, ¬(c = '{') ∧ ¬(c = '}')) →
    ∀ x ∈ escChars l, braceDelta x = 0 := by
  intro l
  induction l with
  | nil => intro _ x hx; simp [escChars] at hx
  | cons c t IH =>
    intro h x hx
    rw [show escChars (c :: t) = escChar c ++ escChars t from rfl] at hx
    rcases List.mem_append.mp hx with h1 | h1
    · exact escChar_nb c (h c (by simp)).1 (h c (by simp)).2 x h1
    · exact IH (fun y hy => h y (by simp [hy])) x h1

theorem braceFree_chars (k : String) (h : braceFreeStr k = true) :
    ∀ c ∈ k.data, ¬(c = '{') ∧ ¬(c = '}') := by
  intro c hc
  have := (List.all_eq_true.mp h) c hc
  constructor <;> intro he <;> subst he <;> simp at this

theorem intToChars_nb (i : Int) : ∀ x ∈ intToChars i, braceDelta x = 0 := by
  intro x hx
  unfold intToChars at hx
  split at hx
  · simp at hx
    rcases hx with rfl | h
    · decide
    · exact braceDelta_digit x (natToChars_all_digits _ x h)
  · exact braceDelta_digit x (natToChars_all_digits _ x hx)

theorem kb_nb (k : String) (h : braceFreeStr k = true) :
    ∀ x ∈ ('"' :: (escChars k.data ++ ['"', ':'])), braceDelta x = 0 := by
  intro x hx
  simp only [List.mem_cons, List.mem_append] at hx
  rcases hx with rfl | hx | hx
  · decide
  · exact escChars_nb k.data (braceFree_chars k h) x hx
  · simp at hx
    rcases hx with rfl | rfl <;> decide

theorem append_split {α : Type} : ∀ (A B p q : List α), A ++ B = p ++ q →
    (∃ t, A = p ++ t ∧ q = t ++ B) ∨ (∃ t, p = A ++ t ∧ B = t ++ q) := by
  intro A
  induction A with
  | nil =>
    intro B p q h
    exact Or.inr ⟨p, by simp, by simpa using h⟩
  | cons a A2 IH =>
    intro B p q h
    cases p with
    | nil =>
      exact Or.inl ⟨a :: A2, by simp, by simpa using h.symm⟩
    | cons x p2 =>
      rw [List.cons_append, List.cons_append] at h
      injection h with hax ht
      subst hax
      rcases IH B p2 q ht with ⟨t, h1, h2⟩ | ⟨t, h1, h2⟩
      · exact Or.inl ⟨t, by rw [List.cons_append, h1], h2⟩
      · exact Or.inr ⟨t, by rw [List.cons_append, h1], h2⟩

/-- Brace balance of compact serializations: a brace-free value
serializes with balance zero and no prefix dipping below zero; the
member tail closes the enclosing object, ending one below zero, with
every proper prefix still nonnegative.  Objects additionally keep every
interior prefix at depth at least one, which is what makes the
concatenated-objects scan slice whole objects. -/
theorem bal_dump_all : ∀ N : Nat,
    (∀ v : JVal, sizeOf v ≤ N → nobB v = true →
        bal (dumpVal v) = 0 ∧ (∀ p q, dumpVal v = p ++ q → 0 ≤ bal p) ∧
        (∀ ms : List (String × JVal), v = JVal.obj ms →
          ∀ p q, dumpVal v = p ++ q → p ≠ [] → q ≠ [] → 1 ≤ bal p)) ∧
    (∀ l : List JVal, sizeOf l ≤ N → nobArr l = true →
        bal (dumpElemsRest l) = 0 ∧ (∀ p q, dumpElemsRest l = p ++ q → 0 ≤ bal p)) ∧
    (∀ ms : List (String × JVal), sizeOf ms ≤ N → nobMems ms = true →
        bal (dumpMembersRest ms) = -1 ∧
        (∀ p q, dumpMembersRest ms = p ++ q → q ≠ [] → 0 ≤ bal p)) := by
  intro N
  induction N using Nat.strong_induction_on with
  | _ N IH =>
    have IHv : ∀ v : JVal, sizeOf v < N → nobB v = true →
        bal (dumpVal v) = 0 ∧ (∀ p q, dumpVal v = p ++ q → 0 ≤ bal p) :=
      fun v hv hn => ⟨((IH (sizeOf v) hv).1 v le_rfl hn).1, ((IH (sizeOf v) hv).1 v le_rfl hn).2.1⟩
    have IHe : ∀ l : List JVal, sizeOf l < N → nobArr l = true →
        bal (dumpElemsRest l) = 0 ∧ (∀ p q, dumpElemsRest l = p ++ q → 0 ≤ bal p) :=
      fun l hl => (IH (sizeOf l) hl).2.1 l le_rfl
    have IHm : ∀ ms : List (String × JVal), sizeOf ms < N → nobMems ms = true →
        bal (dumpMembersRest ms) = -1 ∧
        (∀ p q, dumpMembersRest ms = p ++ q → q ≠ [] → 0 ≤ bal p) :=
      fun ms hm => (IH (sizeOf ms) hm).2.2 ms le_rfl
    have atomCase : ∀ cs : List Char, (∀ c ∈ cs, braceDelta c = 0) →
        bal cs = 0 ∧ (∀ p q, cs = p ++ q → 0 ≤ bal p) :=
      fun cs h => ⟨bal_of_zeros cs h, fun p q hpq => (zeros_split cs p q hpq h).ge⟩
    refine ⟨?_, ?_, ?_⟩
    · intro v hsz hnob
      cases v with
      | null =>
        rw [show dumpVal JVal.null = ['n', 'u', 'l', 'l'] from by simp [dumpVal]]
        exact ⟨(atomCase _ (by decide)).1, (atomCase _ (by decide)).2, fun ms hms => by cases hms⟩
      | bool b =>
        cases b with
        | true =>
          rw [show dumpVal (JVal.bool true) = ['t', 'r', 'u', 'e'] from by simp [dumpVal]]
          exact ⟨(atomCase _ (by decide)).1, (atomCase _ (by decide)).2, fun ms hms => by cases hms⟩
        | false =>
          rw [show dumpVal (JVal.bool false) = ['f', 'a', 'l', 's', 'e'] from by simp [dumpVal]]
          exact ⟨(atomCase _ (by decide)).1, (atomCase _ (by decide)).2, fun ms hms => by cases hms⟩
      | num i =>
        rw [show dumpVal (JVal.num i) = intToChars i from by simp [dumpVal]]
        exact ⟨(atomCase _ (intToChars_nb i)).1, (atomCase _ (intToChars_nb i)).2,
          fun ms hms => by cases hms⟩
      | str s =>
        have hz : ∀ x ∈ ('"' :: (escChars s.data ++ ['"'])), braceDelta x = 0 := by
          intro x hx
          simp only [List.mem_cons, List.mem_append] at hx
          rcases hx with rfl | hx | hx
          · decide
          · exact escChars_nb s.data (braceFree_chars s (by simpa [nobB] using hnob)) x hx
          · simp at hx
            subst hx
            decide
        rw [show dumpVal (JVal.str s) = '"' :: (escChars s.data ++ ['"']) from by simp [dumpVal]]
        exact ⟨(atomCase _ hz).1, (atomCase _ hz).2, fun ms hms => by cases hms⟩
      | arr l =>
        cases l with
        | nil =>
          rw [show dumpVal (JVal.arr []) = ['[', ']'] from by simp [dumpVal]]
          exact ⟨(atomCase _ (by decide)).1, (atomCase _ (by decide)).2, fun ms hms => by cases hms⟩
        | cons v vs =>
          have hsz2 := hsz
          simp only [JVal.arr.sizeOf_spec, List.cons.sizeOf_spec] at hsz2
          have hnob2 : nobB v = true ∧ nobArr vs = true := by
            simpa [nobB, nobArr] using hnob
          have hv := IHv v (by omega) hnob2.1
          have he := IHe vs (by omega) hnob2.2
          rw [show dumpVal (JVal.arr (v :: vs)) = '[' :: (dumpVal v ++ dumpElemsRest vs)
            from by simp [dumpVal]]
          refine ⟨?_, ?_, fun ms hms => by cases hms⟩
          · rw [show bal ('[' :: (dumpVal v ++ dumpElemsRest vs)) =
                braceDelta '[' + (bal (dumpVal v) + bal (dumpElemsRest vs))
              from by simp [bal, bal_append], hv.1, he.1]
            decide
          · intro p q hpq
            rcases p with _ | ⟨a, p2⟩
            · simp [bal]
            rw [List.cons_append] at hpq
            injection hpq with ha htail
            subst ha
            have hbp : 0 ≤ bal p2 := by
              rcases append_split _ _ _ _ htail with ⟨t, h1, h2⟩ | ⟨t, h1, h2⟩
              · exact hv.2 p2 t h1
              · rw [h1, bal_append, hv.1]
                have := he.2 t q h2
                omega
            rw [show bal ('[' :: p2) = braceDelta '[' + bal p2 from by simp [bal]]
            have hd : braceDelta '[' = 0 := by decide
            omega
      | obj ms =>
        rcases ms with _ | ⟨⟨k, v⟩, ms⟩
        · rw [show dumpVal (JVal.obj []) = ['{', '}'] from by simp [dumpVal]]
          refine ⟨by decide, ?_, ?_⟩
          · intro p q hpq
            rcases p with _ | ⟨a, p2⟩
            · simp [bal]
            rcases p2 with _ | ⟨b, p3⟩
            · simp at hpq
              rw [show a = '{' from hpq.1.symm]
              decide
            · rcases p3 with _ | ⟨e, p4⟩
              · simp at hpq
                rw [show a = '{' from hpq.1.symm, show b = '}' from hpq.2.1.symm]
                decide
              · simp at hpq
          · intro ms2 hms2 p q hpq hp hq
            rcases p with _ | ⟨a, p2⟩
            · exact absurd rfl hp
            rcases p2 with _ | ⟨b, p3⟩
            · simp at hpq
              rw [show a = '{' from hpq.1.symm]
              decide
            · rcases p3 with _ | ⟨e, p4⟩
              · simp at hpq
                exact absurd hpq.2.2 hq
              · simp at hpq
        · have hsz2 := hsz
          simp only [JVal.obj.sizeOf_spec, List.cons.sizeOf_spec, Prod.mk.sizeOf_spec] at hsz2
          have hnob2 : braceFreeStr k = true ∧ nobB v = true ∧ nobMems ms = true := by
            simpa [nobB, nobMems, and_assoc] using hnob
          have hv := IHv v (by omega) hnob2.2.1
          have hm := IHm ms (by omega) hnob2.2.2
          have kbzero : bal ('"' :: (escChars k.data ++ ['"', ':'])) = 0 :=
            bal_of_zeros _ (kb_nb k hnob2.1)
          rw [show dumpVal (JVal.obj ((k, v) :: ms)) =
              '{' :: (('"' :: (escChars k.data ++ ['"', ':'])) ++
                (dumpVal v ++ dumpMembersRest ms))
            from by simp [dumpVal, List.append_assoc]]
          have hbal0 : bal ('{' :: (('"' :: (escChars k.data ++ ['"', ':'])) ++
              (dumpVal v ++ dumpMembersRest ms))) = 0 := by
            rw [show bal ('{' :: (('"' :: (escChars k.data ++ ['"', ':'])) ++
                (dumpVal v ++ dumpMembersRest ms))) =
              braceDelta '{' + (bal ('"' :: (escChars k.data ++ ['"', ':'])) +
                (bal (dumpVal v) + bal (dumpMembersRest ms)))
              from by simp [bal, bal_append]; ring, kbzero, hv.1, hm.1]
            decide
          have hstrong : ∀ p q,
              '{' :: (('"' :: (escChars k.data ++ ['"', ':'])) ++
                (dumpVal v ++ dumpMembersRest ms)) = p ++ q →
              p ≠ [] → q ≠ [] → 1 ≤ bal p := by
            intro p q hpq hp hq
            rcases p with _ | ⟨a, p2⟩
            · exact absurd rfl hp
            injection hpq.trans (List.cons_append a p2 q) with ha htail
            subst ha
            have hbp : 0 ≤ bal p2 := by
              rcases append_split _ _ _ _ htail with ⟨t, h1, h2⟩ | ⟨t, h1, h2⟩
              · exact (zeros_split _ p2 t h1 (kb_nb k hnob2.1)).ge
              · rcases append_split _ _ _ _ h2 with ⟨u, h3, h4⟩ | ⟨u, h3, h4⟩
                · rw [h1, bal_append, kbzero]
                  have := hv.2 t u h3
                  omega
                · rw [h1, h3, bal_append, bal_append, kbzero, hv.1]
                  have := hm.2 u q h4 hq
                  omega
            rw [show bal ('{' :: p2) = braceDelta '{' + bal p2 from by simp [bal]]
            have hd : braceDelta '{' = 1 := by decide
            omega
          refine ⟨hbal0, ?_, fun ms2 hms2 => hstrong⟩
          intro p q hpq
          by_cases hp : p = []
          · subst hp
            simp [bal]
          by_cases hq : q = []
          · subst hq
            rw [List.append_nil] at hpq
            rw [← hpq, hbal0]
          · have := hstrong p q hpq hp hq
            omega
    · intro l hsz hnob
      cases l with
      | nil =>
        rw [show dumpElemsRest ([] : List JVal) = [']'] from by simp [dumpElemsRest]]
        exact atomCase _ (by decide)
      | cons v vs =>
        have hsz2 := hsz
        simp only [List.cons.sizeOf_spec] at hsz2
        have hnob2 : nobB v = true ∧ nobArr vs = true := by
          simpa [nobArr] using hnob
        have hv := IHv v (by omega) hnob2.1
        have he := IHe vs (by omega) hnob2.2
        rw [show dumpElemsRest (v :: vs) = ',' :: (dumpVal v ++ dumpElemsRest vs)
          from by simp [dumpElemsRest]]
        refine ⟨?_, ?_⟩
        · rw [show bal (',' :: (dumpVal v ++ dumpElemsRest vs)) =
              braceDelta ',' + (bal (dumpVal v) + bal (dumpElemsRest vs))
            from by simp [bal, bal_append], hv.1, he.1]
          decide
        · intro p q hpq
          rcases p with _ | ⟨a, p2⟩
          · simp [bal]
          rw [List.cons_append] at hpq
          injection hpq with ha htail
          subst ha
          have hbp : 0 ≤ bal p2 := by
            rcases append_split _ _ _ _ htail with ⟨t, h1, h2⟩ | ⟨t, h1, h2⟩
            · exact hv.2 p2 t h1
            · rw [h1, bal_append, hv.1]
              have := he.2 t q h2
              omega
          rw [show bal (',' :: p2) = braceDelta ',' + bal p2 from by simp [bal]]
          have hd : braceDelta ',' = 0 := by decide
          omega
    · intro ms hsz hnob
      rcases ms with _ | ⟨⟨k, v⟩, ms⟩
      · rw [show dumpMembersRest ([] : List (String × JVal)) = ['}']
          from by simp [dumpMembersRest]]
        refine ⟨by decide, ?_⟩
        intro p q hpq hq
        rcases p with _ | ⟨a, p2⟩
        · simp [bal]
        · simp at hpq
          exact absurd hpq.2.2 hq
      · have hsz2 := hsz
        simp only [List.cons.sizeOf_spec, Prod.mk.sizeOf_spec] at hsz2
        have hnob2 : braceFreeStr k = true ∧ nobB v = true ∧ nobMems ms = true := by
          simpa [nobMems, and_assoc] using hnob
        have hv := IHv v (by omega) hnob2.2.1
        have hm := IHm ms (by omega) hnob2.2.2
        have kbzero : bal ('"' :: (escChars k.data ++ ['"', ':'])) = 0 :=
          bal_of_zeros _ (kb_nb k hnob2.1)
        rw [show dumpMembersRest ((k, v) :: ms) =
            ',' :: (('"' :: (escChars k.data ++ ['"', ':'])) ++
              (dumpVal v ++ dumpMembersRest ms))
          from by simp [dumpMembersRest, List.append_assoc]]
        refine ⟨?_, ?_⟩
        · rw [show bal (',' :: (('"' :: (escChars k.data ++ ['"', ':'])) ++
              (dumpVal v ++ dumpMembersRest ms))) =
            braceDelta ',' + (bal ('"' :: (escChars k.data ++ ['"', ':'])) +
              (bal (dumpVal v) + bal (dumpMembersRest ms)))
            from by simp [bal, bal_append]; ring, kbzero, hv.1, hm.1]
          decide
        · intro p q hpq hq
          rcases p with _ | ⟨a, p2⟩
          · simp [bal]
          injection hpq.trans (List.cons_append a p2 q) with ha htail
          subst ha
          have hbp : 0 ≤ bal p2 := by
            rcases append_split _ _ _ _ htail with ⟨t, h1, h2⟩ | ⟨t, h1, h2⟩
            · exact (zeros_split _ p2 t h1 (kb_nb k hnob2.1)).ge
            · rcases append_split _ _ _ _ h2 with ⟨u, h3, h4⟩ | ⟨u, h3, h4⟩
              · rw [h1, bal_append, kbzero]
                have := hv.2 t u h3
                omega
              · rw [h1, h3, bal_append, bal_append, kbzero, hv.1]
                have := hm.2 u q h4 hq
                omega
          rw [show bal (',' :: p2) = braceDelta ',' + bal p2 from by simp [bal]]
          have hd : braceDelta ',' = 0 := by decide
          omega

theorem bal_dumpObj (r : Record) (h : nobB (JVal.obj r) = true) :
    bal (dumpVal (JVal.obj r)) = 0 :=
  ((bal_dump_all (sizeOf (JVal.obj r))).1 (JVal.obj r) le_rfl h).1

theorem bal_dumpObj_interior (r : Record) (h : nobB (JVal.obj r) = true) :
    ∀ p q, dumpVal (JVal.obj r) = p ++ q → p ≠ [] → q ≠ [] → 1 ≤ bal p :=
  ((bal_dump_all (sizeOf (JVal.obj r))).1 (JVal.obj r) le_rfl h).2.2 r rfl

theorem take_len_plus {α : Type} : ∀ (l1 l2 : List α) (n : Nat),
    (l1 ++ l2).take (l1.length + n) = l1 ++ l2.take n := by
  intro l1
  induction l1 with
  | nil => intro l2 n; simp
  | cons a t IH =>
    intro l2 n
    rw [List.cons_append, List.length_cons,
      show t.length + 1 + n = (t.length + n) + 1 from by omega,
      List.take_succ_cons, IH, List.cons_append]

/-!
### Step behavior of the concatenated-objects scan
-/

theorem s4_lbrace (content rest : List Char) (i : Nat) (bc : Int) (sp : Nat)
    (objs : List Record) :
    strategy4Aux content ('{' :: rest) i bc sp objs =
      strategy4Aux content rest (i + 1) (bc + 1) (if bc = 0 then i else sp) objs := rfl

theorem s4_other (content rest : List Char) (c : Char) (i : Nat) (bc : Int) (sp : Nat)
    (objs : List Record) (h1 : ¬(c = '{')) (h2 : ¬(c = '}')) :
    strategy4Aux content (c :: rest) i bc sp objs =
      strategy4Aux content rest (i + 1) bc sp objs := by
  simp [strategy4Aux, h1, h2]

theorem s4_rbrace_deep (content rest : List Char) (i : Nat) (bc : Int) (sp : Nat)
    (objs : List Record) (h : ¬(bc - 1 = 0)) :
    strategy4Aux content ('}' :: rest) i bc sp objs =
      strategy4Aux content rest (i + 1) (bc - 1) sp objs := by
  simp [strategy4Aux, h]

theorem s4_hit_obj (content rest : List Char) (i sp : Nat) (objs : List Record) (d : Record)
    (h : jsonLoadsL ((content.drop sp).take (i + 1 - sp)) = some (JVal.obj d)) :
    strategy4Aux content ('}' :: rest) i 1 sp objs =
      strategy4Aux content rest (i + 1) 0 sp (objs ++ [d]) := by
  have h0 : (1 : Int) - 1 = 0 := by norm_num
  simp [strategy4Aux, h0, h]

theorem s4_hit_skip (content rest : List Char) (i sp : Nat) (objs : List Record)
    (h : ∀ d : Record,
      ¬(jsonLoadsL ((content.drop sp).take (i + 1 - sp)) = some (JVal.obj d))) :
    strategy4Aux content ('}' :: rest) i 1 sp objs =
      strategy4Aux content rest (i + 1) 0 sp objs := by
  have h0 : (1 : Int) - 1 = 0 := by norm_num
  rcases hj : jsonLoadsL ((content.drop sp).take (i + 1 - sp)) with _ | v
  · simp [strategy4Aux, h0, hj]
  · cases v with
    | obj d => exact absurd hj (h d)
    | null => simp [strategy4Aux, h0, hj]
    | bool b => simp [strategy4Aux, h0, hj]
    | num n => simp [strategy4Aux, h0, hj]
    | str s => simp [strategy4Aux, h0, hj]
    | arr l => simp [strategy4Aux, h0, hj]

/-- While the depth is at least one and stays at least one across a
block, the scan walks through the block character by character, only
updating the index and the counter. -/
theorem scan_inside : ∀ (mid C content : List Char) (i : Nat) (dc : Int) (sp : Nat)
    (objs : List Record), 1 ≤ dc → (∀ p q, mid = p ++ q → 1 ≤ dc + bal p) →
    strategy4Aux content (mid ++ C) i dc sp objs =
      strategy4Aux content C (i + mid.length) (dc + bal mid) sp objs := by
  intro mid
  induction mid with
  | nil =>
    intro C content i dc sp objs h1 h2
    simp [bal]
  | cons c mid IH =>
    intro C content i dc sp objs h1 h2
    have e1 : i + (c :: mid).length = i + 1 + mid.length := by
      simp
      omega
    by_cases hc1 : c = '{'
    · subst hc1
      have e2 : dc + bal ('{' :: mid) = dc + 1 + bal mid := by
        simp [bal, braceDelta]
        ring
      rw [List.cons_append, s4_lbrace, if_neg (by omega : ¬(dc = 0)), e1, e2]
      refine IH C content (i + 1) (dc + 1) sp objs (by omega) ?_
      intro p q hpq
      have h3 := h2 ('{' :: p) q (by simp [hpq])
      rw [show bal ('{' :: p) = braceDelta '{' + bal p from by simp [bal]] at h3
      have e3 : braceDelta '{' = 1 := by decide
      omega
    · by_cases hc2 : c = '}'
      · subst hc2
        have hdeep : 1 ≤ dc - 1 := by
          have h3 := h2 ['}'] mid (by simp)
          have e3 : bal ['}'] = -1 := by decide
          omega
        have e2 : dc + bal ('}' :: mid) = dc - 1 + bal mid := by
          simp [bal, braceDelta]
          ring
        rw [List.cons_append, s4_rbrace_deep _ _ _ _ _ _ (by omega), e1, e2]
        refine IH C content (i + 1) (dc - 1) sp objs hdeep ?_
        intro p q hpq
        have h3 := h2 ('}' :: p) q (by simp [hpq])
        rw [show bal ('}' :: p) = braceDelta '}' + bal p from by simp [bal]] at h3
        have e3 : braceDelta '}' = -1 := by decide
        omega
      · have hd0 : braceDelta c = 0 := by
          simp [braceDelta, hc1, hc2]
        have e2 : dc + bal (c :: mid) = dc + bal mid := by
          simp [bal, hd0]
        rw [List.cons_append, s4_other _ _ _ _ _ _ _ hc1 hc2, e1, e2]
        refine IH C content (i + 1) dc sp objs h1 ?_
        intro p q hpq
        have h3 := h2 (c :: p) q (by simp [hpq])
        rw [show bal (c :: p) = braceDelta c + bal p from by simp [bal]] at h3
        omega

/-- Passing one whole serialized object: the scan records its start at
the opening brace, walks the interior at positive depth, and at the
closing brace slices exactly the object's text, which parses back to
the record. -/
theorem scan_object (r : Record) (P C : List Char) (sp : Nat) (acc : List Record)
    (hwf : wfB (JVal.obj r) = true) (hnob : nobB (JVal.obj r) = true) :
    strategy4Aux (P ++ (dumpVal (JVal.obj r) ++ C)) (dumpVal (JVal.obj r) ++ C)
        P.length 0 sp acc =
      strategy4Aux (P ++ (dumpVal (JVal.obj r) ++ C)) C
        (P.length + (dumpVal (JVal.obj r)).length) 0 P.length (acc ++ [r]) := by
  obtain ⟨mid, hS⟩ := dumpObj_shape r
  have hlen : (dumpVal (JVal.obj r)).length = mid.length + 2 := by
    rw [hS]
    simp
  have hmidbal : bal mid = 0 := by
    have h0 := bal_dumpObj r hnob
    rw [hS, show bal ('{' :: (mid ++ ['}'])) = braceDelta '{' + (bal mid + bal ['}'])
      from by simp [bal, bal_append]] at h0
    have e1 : braceDelta '{' = 1 := by decide
    have e2 : bal ['}'] = -1 := by decide
    omega
  have hint := bal_dumpObj_interior r hnob
  have hpref : ∀ p q, mid = p ++ q → 1 ≤ (1 : Int) + bal p := by
    intro p q hpq
    have h1 := hint ('{' :: p) (q ++ ['}'])
      (by rw [hS, hpq]; simp) (by simp) (by simp)
    rw [show bal ('{' :: p) = braceDelta '{' + bal p from by simp [bal]] at h1
    have e1 : braceDelta '{' = 1 := by decide
    omega
  rw [hlen, hS]
  rw [List.cons_append, s4_lbrace, if_pos rfl,
    show (0 : Int) + 1 = 1 from by norm_num,
    List.append_assoc, List.singleton_append]
  rw [scan_inside mid ('}' :: C) _ (P.length + 1) 1 P.length acc (by norm_num) hpref]
  rw [show (1 : Int) + bal mid = 1 from by rw [hmidbal]; norm_num]
  have hslice : (((P ++ ('{' :: (mid ++ ('}' :: C)))).drop P.length).take
      (P.length + 1 + mid.length + 1 - P.length)) = '{' :: (mid ++ ['}']) := by
    rw [show P.length + 1 + mid.length + 1 - P.length = mid.length + 2 from by omega,
      List.drop_left,
      show mid.length + 2 = mid.length + 1 + 1 from rfl,
      List.take_succ_cons,
      show mid.length + 1 = mid.length + 1 from rfl,
      take_len_plus mid ('}' :: C) 1]
    rfl
  rw [s4_hit_obj _ _ _ _ _ r (by rw [hslice, ← hS]; exact jsonLoadsL_dump _ hwf)]
  rw [show P.length + 1 + mid.length + 1 = P.length + (mid.length + 2) from by omega]

/-- The scan over a concatenation of serialized objects collects them
all, in order, onto the accumulator. -/
theorem scan_all : ∀ (rs : List Record) (P : List Char) (sp : Nat) (acc : List Record),
    (∀ r ∈ rs, wfB (JVal.obj r) = true ∧ nobB (JVal.obj r) = true) →
    strategy4Aux (P ++ concatAll (rs.map (fun r => dumpVal (JVal.obj r))))
      (concatAll (rs.map (fun r => dumpVal (JVal.obj r)))) P.length 0 sp acc = acc ++ rs := by
  intro rs
  induction rs with
  | nil =>
    intro P sp acc h
    simp [concatAll, strategy4Aux]
  | cons r rest IH =>
    intro P sp acc h
    rw [show concatAll ((r :: rest).map (fun x => dumpVal (JVal.obj x))) =
        dumpVal (JVal.obj r) ++ concatAll (rest.map (fun x => dumpVal (JVal.obj x)))
      from by simp [concatAll]]
    rw [scan_object r P _ sp acc (h r (by simp)).1 (h r (by simp)).2]
    rw [show P.length + (dumpVal (JVal.obj r)).length =
        (P ++ dumpVal (JVal.obj r)).length from by simp]
    rw [show P ++ (dumpVal (JVal.obj r) ++
          concatAll (rest.map (fun x => dumpVal (JVal.obj x)))) =
        (P ++ dumpVal (JVal.obj r)) ++ concatAll (rest.map (fun x => dumpVal (JVal.obj x)))
      from by simp [List.append_assoc]]
    rw [IH (P ++ dumpVal (JVal.obj r)) P.length (acc ++ [r])
      (fun x hx => h x (by simp [hx]))]
    simp

/-- Strategy 4 on a separator-free concatenation of serialized objects
returns exactly those objects, in order. -/
theorem strategy4_concat (rs : List Record)
    (h : ∀ r ∈ rs, wfB (JVal.obj r) = true ∧ nobB (JVal.obj r) = true) :
    strategy4L (concatAll (rs.map (fun r => dumpVal (JVal.obj r)))) = rs := by
  have h2 := scan_all rs [] 0 [] h
  simpa [strategy4L] using h2

/-!
### Round trip through the writer
-/

/-- Compact write followed by a parse restores the record list: the
writer emits one serialized object per line plus a terminal newline,
the read-time strip removes that trailing newline, and the parse
recovers every record. -/
theorem parse_write_roundtrip : ∀ (rs : List Record) (indent : Option Int), rs ≠ [] →
    (∀ r ∈ rs, wfB (.obj r) = true) →
    parse_json_file (write_jsonl_file rs false indent) = rs := by
  intro rs indent hne hwf
  have hmapne : rs.map (fun o => dumpVal (JVal.obj o)) ≠ [] := by
    simpa using hne
  show parseCoreL (pyStripL (write_jsonl_file rs false indent).data) = rs
  rw [show (write_jsonl_file rs false indent).data =
      joinAll (rs.map (fun o => dumpVal (JVal.obj o))) from rfl]
  rw [joinAll_eq_joinNL _ hmapne]
  rcases rs with _ | ⟨r1, rs2⟩
  · exact absurd rfl hne
  have hh : ∀ x, (joinNL ((r1 :: rs2).map (fun o => dumpVal (JVal.obj o)))).head? = some x →
      isPyWs x = false := by
    intro x hx
    obtain ⟨cs, hcs⟩ := joinNL_dumps_head r1 rs2
    rw [hcs] at hx
    simp at hx
    subst hx
    decide
  have hl : ∀ x, (joinNL ((r1 :: rs2).map (fun o => dumpVal (JVal.obj o)))).getLast? = some x →
      isPyWs x = false := by
    intro x hx
    obtain ⟨pre, hpre⟩ := joinNL_dumps_last (r1 :: rs2) (List.cons_ne_nil _ _)
    rw [hpre, List.getLast?_concat] at hx
    injection hx with hx
    subst hx
    decide
  rw [pyStripL_sandwich hh hl (by decide)]
  exact parseCore_joinNL (r1 :: rs2) (List.cons_ne_nil _ _) hwf

theorem count_nl_joinAll : ∀ ds : List (List Char), (∀ d ∈ ds, '\n' ∉ d) →
    (joinAll ds).count '\n' = ds.length := by
  intro ds
  induction ds with
  | nil => intro _; rfl
  | cons d t IH =>
    intro h
    rw [show joinAll (d :: t) = d ++ '\n' :: joinAll t from rfl]
    rw [List.count_append, List.count_cons]
    have h0 : d.count '\n' = 0 := List.count_eq_zero.mpr (h d (by simp))
    rw [h0, IH (fun x hx => h x (by simp [hx]))]
    simp

theorem filterMap_length_eq_filter {α β : Type} (f : α → Option β) :
    ∀ l : List α, (l.filterMap f).length = (l.filter (fun a => (f a).isSome)).length := by
  intro l
  induction l with
  | nil => rfl
  | cons a t IH =>
    cases hfa : f a with
    | none => simp [List.filterMap_cons, List.filter_cons, hfa, IH]
    | some b => simp [List.filterMap_cons, List.filter_cons, hfa, IH]

/-!
### Claim theorems
-/

/-- Claim C1, counterexample: on the input `[[{"a":1}]]` the
whole-document parse succeeds as a JSON array whose single element is
not a mapping, so the array branch returns with zero records and the
parse ends empty — it does not fall through to the later strategies,
although the concatenated-objects scan alone would have recovered a
record from the same text. -/
theorem claim_C1_counterexample :
    jsonLoadsL (pyStripL "[[\x7b\"a\":1\x7d]]".data) =
      some (JVal.arr [JVal.arr [JVal.obj [("a", JVal.num 1)]]]) ∧
    parse_json_file "[[\x7b\"a\":1\x7d]]" = [] ∧
    strategy4L (pyStripL "[[\x7b\"a\":1\x7d]]".data) = [[("a", JVal.num 1)]] :=
  ⟨by decide, by decide, by decide⟩

/-- Claim C1, amended: the strategy order the code actually implements.
A successful whole-document parse ends the function: a mapping returns
alone, and an array returns its mapping elements even when there are
none.  Only when the whole-document parse fails does the line-delimited
pass run, and the concatenated-objects scan only when that pass found
nothing. -/
theorem claim_C1_amended (text : String) :
    parse_json_file text =
      match jsonLoadsL (pyStripL text.data) with
      | some (.obj d) => [d]
      | some (.arr items) => items.filterMap jvalToRecord
      | _ =>
        if strategy3L (pyStripL text.data) = [] then strategy4L (pyStripL text.data)
        else strategy3L (pyStripL text.data) := by
  show parseCoreL (pyStripL text.data) = _
  exact parseCoreL_eq _

/-- Claim C2: a separator-free concatenation of at least one serialized
object with no braces inside any string key or value is sliced by the
brace-depth scan into exactly those objects, in left-to-right order. -/
theorem claim_C2 (rs : List Record) (hne : rs ≠ [])
    (h : ∀ r ∈ rs, wfB (JVal.obj r) = true ∧ nobB (JVal.obj r) = true) :
    strategy4L (concatAll (rs.map (fun r => dumpVal (JVal.obj r)))) = rs ∧
    (strategy4L (concatAll (rs.map (fun r => dumpVal (JVal.obj r))))).length = rs.length := by
  refine ⟨strategy4_concat rs h, ?_⟩
  rw [strategy4_concat rs h]

theorem claim_C2_witness :
    ([[("a", JVal.num 1)], [("b", JVal.num 2)]] : List Record) ≠ [] ∧
    strategy4L (concatAll (([[("a", JVal.num 1)], [("b", JVal.num 2)]] : List Record).map
      (fun r => dumpVal (JVal.obj r)))) = [[("a", JVal.num 1)], [("b", JVal.num 2)]] :=
  ⟨by decide, (claim_C2 [[("a", JVal.num 1)], [("b", JVal.num 2)]]
    (by decide) (by decide)).1⟩

/-- Claim C3: newline-joined serialized objects, one per line with no
blank lines, parse back to exactly those objects in file order. -/
theorem claim_C3 (rs : List Record) (hne : rs ≠ [])
    (hwf : ∀ r ∈ rs, wfB (.obj r) = true) :
    parse_json_file (String.mk (joinNL (rs.map (fun r => dumpVal (.obj r))))) = rs ∧
    (parse_json_file (String.mk (joinNL (rs.map (fun r => dumpVal (.obj r)))))).length =
      rs.length := by
  refine ⟨parse_json_file_joinNL rs hne hwf, ?_⟩
  rw [parse_json_file_joinNL rs hne hwf]

theorem claim_C3_witness :
    ([[("a", JVal.num 1)], [("b", JVal.num 2)]] : List Record) ≠ [] ∧
    parse_json_file (String.mk (joinNL (([[("a", JVal.num 1)], [("b", JVal.num 2)]] :
      List Record).map (fun r => dumpVal (.obj r))))) =
      [[("a", JVal.num 1)], [("b", JVal.num 2)]] :=
  ⟨by decide, (claim_C3 [[("a", JVal.num 1)], [("b", JVal.num 2)]]
    (by decide) (by decide)).1⟩

/-- Claim C4: compact serialization followed by a re-parse restores the
record sequence, order preserved (for records with distinct keys, the
only ones the writer-parser pair can distinguish). -/
theorem claim_C4 (rs : List Record) (indent : Option Int)
    (hwf : ∀ r ∈ rs, wfB (.obj r) = true) :
    parse_json_file (write_jsonl_file rs false indent) = rs := by
  rcases rs with _ | ⟨r1, rs2⟩
  · rw [show write_jsonl_file [] false indent = String.mk [] from rfl]
    decide
  · exact parse_write_roundtrip (r1 :: rs2) indent (List.cons_ne_nil _ _) hwf

theorem claim_C4_witness :
    parse_json_file (write_jsonl_file [[("a", JVal.num 1)], [("b", JVal.str "x")]] false none) =
      [[("a", JVal.num 1)], [("b", JVal.str "x")]] :=
  claim_C4 [[("a", JVal.num 1)], [("b", JVal.str "x")]] none (by decide)

/-- Claim C5: when the whole stripped text parses as an array, the
result is exactly the mapping elements in relative order, its length
the number of mapping elements; non-mapping elements are dropped
without aborting. -/
theorem claim_C5 (text : String) (items : List JVal)
    (h : jsonLoadsL (pyStripL text.data) = some (JVal.arr items)) :
    parse_json_file text = items.filterMap jvalToRecord ∧
    (parse_json_file text).length =
      (items.filter (fun item => (jvalToRecord item).isSome)).length := by
  have h1 : parse_json_file text = items.filterMap jvalToRecord := by
    show parseCoreL (pyStripL text.data) = _
    rw [parseCoreL_eq, h]
  exact ⟨h1, by rw [h1, filterMap_length_eq_filter]⟩

theorem claim_C5_witness :
    jsonLoadsL (pyStripL "[1, \x7b\"a\":1\x7d, \"x\"]".data) =
      some (JVal.arr [JVal.num 1, JVal.obj [("a", JVal.num 1)], JVal.str "x"]) ∧
    parse_json_file "[1, \x7b\"a\":1\x7d, \"x\"]" =
      [JVal.num 1, JVal.obj [("a", JVal.num 1)], JVal.str "x"].filterMap jvalToRecord :=
  ⟨by decide, (claim_C5 "[1, \x7b\"a\":1\x7d, \"x\"]"
    [JVal.num 1, JVal.obj [("a", JVal.num 1)], JVal.str "x"] (by decide)).1⟩

/-- Claim C6: when the whole stripped text parses as a mapping, the
parse returns that mapping as the only record. -/
theorem claim_C6 (text : String) (d : Record)
    (h : jsonLoadsL (pyStripL text.data) = some (JVal.obj d)) :
    parse_json_file text = [d] := by
  show parseCoreL (pyStripL text.data) = _
  rw [parseCoreL_eq, h]

theorem claim_C6_witness :
    jsonLoadsL (pyStripL "\x7b\"a\":1\x7d".data) = some (JVal.obj [("a", JVal.num 1)]) ∧
    parse_json_file "\x7b\"a\":1\x7d" = [[("a", JVal.num 1)]] :=
  ⟨by decide, claim_C6 "\x7b\"a\":1\x7d" [("a", JVal.num 1)] (by decide)⟩

/-- Claim C7: per-element skip semantics — a line that does not parse
to a mapping contributes nothing to the line-delimited pass, a
non-mapping array element contributes nothing to the array pass, and a
depth-zero-closing candidate that does not parse to a mapping is passed
over by the scan with the accumulator unchanged; the surrounding
elements are kept in every case.  (The embedded parser is a total
function: no input raises.) -/
theorem claim_C7 :
    (∀ (pre post : List (List Char)) (b : List Char), lineToRecord b = none →
      (pre ++ [b] ++ post).filterMap lineToRecord = (pre ++ post).filterMap lineToRecord) ∧
    (∀ (pre post : List JVal) (x : JVal), jvalToRecord x = none →
      (pre ++ [x] ++ post).filterMap jvalToRecord = (pre ++ post).filterMap jvalToRecord) ∧
    (∀ (content rest : List Char) (i sp : Nat) (objs : List Record),
      (jsonLoadsL ((content.drop sp).take (i + 1 - sp))).bind jvalToRecord = none →
      strategy4Aux content ('}' :: rest) i 1 sp objs =
        strategy4Aux content rest (i + 1) 0 sp objs) := by
  refine ⟨?_, ?_, ?_⟩
  · intro pre post b hb
    simp [List.filterMap_append, List.filterMap_cons, hb]
  · intro pre post x hx
    simp [List.filterMap_append, List.filterMap_cons, hx]
  · intro content rest i sp objs h
    apply s4_hit_skip
    intro d hd
    rw [hd] at h
    simp [jvalToRecord] at h

theorem claim_C7_witness :
    (([['{', '}']] ++ [['o', 'o', 'p', 's']] ++ [['{', '}']]).filterMap lineToRecord =
      ([['{', '}']] ++ [['{', '}']]).filterMap lineToRecord) ∧
    (([JVal.obj []] ++ [JVal.num 7] ++ [JVal.obj []]).filterMap jvalToRecord =
      ([JVal.obj []] ++ [JVal.obj []]).filterMap jvalToRecord) ∧
    (strategy4Aux ['{', 'x', '}'] ('}' :: []) 2 1 0 [] =
      strategy4Aux ['{', 'x', '}'] [] 3 0 0 []) :=
  ⟨claim_C7.1 [['{', '}']] [['{', '}']] ['o', 'o', 'p', 's'] (by decide),
   claim_C7.2.1 [JVal.obj []] [JVal.obj []] (JVal.num 7) (by decide),
   claim_C7.2.2 ['{', 'x', '}'] [] 2 0 [] (by decide)⟩

/-- Claim C8: the command's exit status is zero exactly when the input
file exists, at least one record was recovered, and the sink write
succeeds; each failure — missing input, zero records, failed write —
exits with status one. -/
theorem claim_C8 (inputExists : Bool) (content : String) (writeOk : Bool) :
    (mainExitCode inputExists content writeOk = 0 ↔
      inputExists = true ∧ parse_json_file content ≠ [] ∧ writeOk = true) ∧
    (inputExists = false → mainExitCode inputExists content writeOk = 1) ∧
    (parse_json_file content = [] → mainExitCode inputExists content writeOk = 1) ∧
    (writeOk = false → mainExitCode inputExists content writeOk = 1) := by
  cases inputExists <;> cases writeOk <;>
    by_cases hp : parse_json_file content = [] <;>
      simp [mainExitCode, hp]

theorem claim_C8_witness :
    mainExitCode true "\x7b\"a\":1\x7d" true = 0 ∧
    mainExitCode false "\x7b\"a\":1\x7d" true = 1 ∧
    mainExitCode true "xyz" true = 1 ∧
    mainExitCode true "\x7b\"a\":1\x7d" false = 1 :=
  ⟨(claim_C8 true "\x7b\"a\":1\x7d" true).1.mpr ⟨rfl, by decide, rfl⟩,
   (claim_C8 false "\x7b\"a\":1\x7d" true).2.1 rfl,
   (claim_C8 true "xyz" true).2.2.1 (by decide),
   (claim_C8 true "\x7b\"a\":1\x7d" false).2.2.2 rfl⟩

/-- Claim C9: in compact mode the writer emits one newline-free
serialized document per record, each followed by exactly one newline —
splitting the output on newlines yields the N documents plus the empty
segment after the terminal newline, and the output holds exactly N
newline characters. -/
theorem claim_C9 (rs : List Record) (indent : Option Int) :
    splitNLChars (write_jsonl_file rs false indent).data =
      rs.map (fun r => dumpVal (JVal.obj r)) ++ [[]] ∧
    (∀ r ∈ rs, '\n' ∉ dumpVal (JVal.obj r)) ∧
    (write_jsonl_file rs false indent).data.count '\n' = rs.length := by
  have hnn : ∀ d ∈ rs.map (fun r => dumpVal (JVal.obj r)), '\n' ∉ d := by
    intro d hd
    rw [List.mem_map] at hd
    obtain ⟨r, _, rfl⟩ := hd
    exact dumpVal_no_nl _
  refine ⟨?_, fun r _ => dumpVal_no_nl _, ?_⟩
  · rw [show (write_jsonl_file rs false indent).data =
        joinAll (rs.map (fun o => dumpVal (JVal.obj o))) from rfl]
    exact splitNL_joinAll _ hnn
  · rw [show (write_jsonl_file rs false indent).data =
        joinAll (rs.map (fun o => dumpVal (JVal.obj o))) from rfl]
    rw [count_nl_joinAll _ hnn]
    simp

/-- Claim C10: with the pretty flag off the writer ignores the indent
argument entirely, and the CLI passes `None` for it regardless of the
`--indent` value, so two runs differing only in indent produce
identical bytes. -/
theorem claim_C10 (rs : List Record) (i1 i2 : Option Int) (j1 j2 : Int) :
    write_jsonl_file rs false i1 = write_jsonl_file rs false i2 ∧
    mainIndentArg false j1 = mainIndentArg false j2 :=
  ⟨rfl, rfl⟩

end J2J
